import Mathlib

/-!
Verification of the RTASS audio segmentation and scoring core.

This file gives a shallow embedding, in Lean 4, of the claim-relevant parts of
the repository (src/transcriber): the silence-aware segmentation planner
(utils.py: _select_boundary, compute_silence_boundaries), the segment
exporters (split_mp3_by_silence, split_mp3_under_limit, bytes_per_ms), the
audio preparation entry point (audio_processor.py: AudioProcessor.prepare_audio),
the transcript digest builder and the sectional scoring scheduler
(scoring.py: _build_transcript_digest, ComplianceScorer.evaluate,
_aggregate_sections).

Modelling conventions:
- Python floats are modelled as rationals (ℚ); all arithmetic in the embedded
  code is exact, which is the structural content the claims are about.
- Filesystem artifacts are modelled by symbolic path tags (SegPath); external
  process invocations (ffmpeg exports, API calls) are modelled by Boolean /
  sum-typed oracles supplied as parameters, so every behaviour of the
  external world is quantified over.
- Python `while` loops are modelled by fuel-based structural recursion; fuel
  exhaustion returns a designated value and the invariant theorems are proved
  for every fuel, while exact-value theorems supply a fuel that is provably
  sufficient.  A loop that makes no progress is thereby modelled as exhausting
  every fuel (returning `none`).
- Python exceptions are modelled with `Except`/`Option`.
-/

/-- Silence markers as returned by `detect_silence_markers` (utils.py):
two lists of timestamps in seconds.  The Python dict keys are `"start"` and
`"end"`; `end` is a Lean keyword, so the second field is named `end_`. -/
structure SilenceMarkers where
  start : List ℚ
  end_ : List ℚ
deriving DecidableEq, Repr

/-- Python `max` on two numbers.  Spelled out with `if` so that it is
kernel-reducible on ℚ (Mathlib's `max` on ℚ is not); proved equal to `max`
below. -/
def pyMax (a b : ℚ) : ℚ := if a ≤ b then b else a

/-- Python `min` on two numbers (kernel-reducible; equal to `min`). -/
def pyMin (a b : ℚ) : ℚ := if a ≤ b then a else b

/-- Python `abs` (kernel-reducible; equal to `|·|`). -/
def pyAbs (a : ℚ) : ℚ := if a < 0 then -a else a

/-- Python `min` on two integers (kernel-reducible; equal to `min`). -/
def iMin (a b : ℤ) : ℤ := if a ≤ b then a else b

/-- The candidate triples built by `_select_boundary` (utils.py lines 286-295):
`(abs (v - target), tag, v)` with tag 0 for silence-end markers and tag 1 for
silence-start markers, keeping only `target ≤ v ≤ target + max_extension`
and `v - last_boundary ≥ 1.0`.  End markers are appended first, as in the
source. -/
def candidateList (target last_boundary : ℚ) (markers : SilenceMarkers)
    (max_extension : ℚ) : List (ℚ × ℕ × ℚ) :=
  (markers.end_.filterMap fun v =>
    if target ≤ v ∧ v ≤ target + max_extension ∧ 1 ≤ v - last_boundary then
      some (pyAbs (v - target), 0, v) else none)
  ++ (markers.start.filterMap fun v =>
    if target ≤ v ∧ v ≤ target + max_extension ∧ 1 ≤ v - last_boundary then
      some (pyAbs (v - target), 1, v) else none)

/-- Lexicographic order on candidate triples, as used by Python's
`candidates.sort()` on tuples. -/
def tripleLE (a b : ℚ × ℕ × ℚ) : Prop :=
  a.1 < b.1 ∨ (a.1 = b.1 ∧ (a.2.1 < b.2.1 ∨ (a.2.1 = b.2.1 ∧ a.2.2 ≤ b.2.2)))

instance (a b : ℚ × ℕ × ℚ) : Decidable (tripleLE a b) :=
  inferInstanceAs (Decidable (a.1 < b.1 ∨
    (a.1 = b.1 ∧ (a.2.1 < b.2.1 ∨ (a.2.1 = b.2.1 ∧ a.2.2 ≤ b.2.2)))))

/-- Binary minimum for the lexicographic order on candidate triples. -/
def tripleMin (a b : ℚ × ℕ × ℚ) : ℚ × ℕ × ℚ :=
  if tripleLE a b then a else b

/-- Python `candidates.sort(); candidates[0]` — the least triple, when the list is
non-empty. -/
def minCandidate : List (ℚ × ℕ × ℚ) → Option (ℚ × ℕ × ℚ)
  | [] => none
  | c :: cs => some (cs.foldl tripleMin c)

/-- Embeds `_select_boundary` (utils.py lines 280-301): pick the best silence marker
in the window, preferring (by the tuple order) smaller distance to target,
then end markers over start markers, then smaller value; if no candidate
qualifies, force `max target (last_boundary + 1.0)`. -/
def _select_boundary (target last_boundary : ℚ) (markers : SilenceMarkers)
    (max_extension : ℚ) : ℚ :=
  match minCandidate (candidateList target last_boundary markers max_extension) with
  | none => pyMax target (last_boundary + 1)
  | some c => c.2.2

/-- Fuel bound for the boundary loop: each appended boundary advances
`last_boundary` by at least 1 and stays below `duration`, so `⌈duration⌉ + 1`
iterations always suffice. -/
def csbFuel (duration : ℚ) : ℕ := duration.ceil.toNat + 1

/-- The `while target < duration - 1.0` loop of `compute_silence_boundaries`
(utils.py lines 318-334), as fuel-based recursion on
(`last_boundary`, `target`).  Returns the produced boundaries including the
final appended `duration`. -/
def csbGo (markers : SilenceMarkers) (duration target_seconds max_extension : ℚ) :
    ℕ → ℚ → ℚ → List ℚ
  | 0, _, _ => [duration]
  | fuel + 1, last_boundary, target =>
    if target < duration - 1 then
      let b := pyMin (_select_boundary target last_boundary markers max_extension) duration
      if duration - 1 ≤ b then [duration]
      else if b - last_boundary < 1 then
        let b' := pyMin duration (last_boundary + pyMax 1 (target_seconds / 4))
        if duration - 1 ≤ b' then [duration]
        else b' :: csbGo markers duration target_seconds max_extension fuel b' (b' + target_seconds)
      else b :: csbGo markers duration target_seconds max_extension fuel b (b + target_seconds)
    else [duration]

/-- Embeds `compute_silence_boundaries` (utils.py lines 304-335). -/
def compute_silence_boundaries (duration : ℚ) (markers : SilenceMarkers)
    (target_seconds max_extension : ℚ) : List ℚ :=
  if duration ≤ 0 then [0]
  else csbGo markers duration target_seconds max_extension (csbFuel duration) 0 target_seconds

/-- The fixed-step boundary recursion that `compute_silence_boundaries`
degenerates to when no silence markers exist and `target_seconds ≥ 1`:
consecutive multiples of `target_seconds` while they stay below
`duration - 1`, then `duration`.  (Spec-side description for C7.) -/
def fixedSteps (D T : ℚ) : ℕ → ℕ → List ℚ
  | 0, _ => [D]
  | fuel + 1, k =>
    if ((k : ℚ) + 1) * T < D - 1 then
      (((k : ℚ) + 1) * T) :: fixedSteps D T fuel (k + 1)
    else [D]

/-- Symbolic file paths for segment artifacts: the source file itself, the
`_part_{idx}` files of size-based splitting, and the `_chunk_{idx}` files of
silence-based splitting. -/
inductive SegPath
  | orig
  | part (idx : ℕ)
  | chunk (idx : ℕ)
deriving DecidableEq, Repr

/-- Embeds `PreparedSegment` (segments.py): an exported audio artifact with timing
metadata in seconds.  `end` is a Lean keyword, hence `end_`. -/
structure PreparedSegment where
  path : SegPath
  start : ℚ
  end_ : ℚ
deriving DecidableEq, Repr

/-- Embeds `PreparedSegment.duration` (segments.py lines 15-18). -/
def PreparedSegment.duration (s : PreparedSegment) : ℚ := max 0 (s.end_ - s.start)

/-- The per-boundary export loop of `split_mp3_by_silence`
(utils.py lines 373-425).  `primaryOk idx` tells whether the ffmpeg export of
pair `idx` produces a non-empty file; `fallbackOk idx` likewise for the
in-process pydub fallback.  A pair whose length is ≤ 0.5 s is skipped; if both
exports fail the Python code raises (modelled as `Except.error ()`). -/
def exportSegs (primaryOk fallbackOk : ℕ → Bool) :
    ℕ → List (ℚ × ℚ) → Except Unit (List PreparedSegment)
  | _, [] => Except.ok []
  | idx, (s, e) :: rest =>
    if e - s ≤ 1/2 then exportSegs primaryOk fallbackOk (idx + 1) rest
    else if primaryOk idx || fallbackOk idx then
      match exportSegs primaryOk fallbackOk (idx + 1) rest with
      | Except.error u => Except.error u
      | Except.ok tail => Except.ok (⟨SegPath.chunk (idx + 1), s, e⟩ :: tail)
    else Except.error ()

/-- Adjacent pairs `(cuts[idx], cuts[idx+1])` of a cut list. -/
def cutPairs : List ℚ → List (ℚ × ℚ)
  | [] => []
  | [_] => []
  | a :: b :: rest => (a, b) :: cutPairs (b :: rest)

/-- Embeds `split_mp3_by_silence` (utils.py lines 346-430), with the audio decode and
silence detection abstracted into the `duration`/`markers` inputs and the two
export oracles.  Mirrors: boundary computation, the `len(boundaries) <= 1`
whole-file branch, the per-pair export loop over `cuts = [0.0] + boundaries`,
and the final `if not segments` whole-file fallback. -/
def split_mp3_by_silence (duration : ℚ) (markers : SilenceMarkers)
    (target_seconds max_extension : ℚ) (primaryOk fallbackOk : ℕ → Bool) :
    Except Unit (List PreparedSegment) :=
  let boundaries := compute_silence_boundaries duration markers target_seconds max_extension
  if boundaries.length ≤ 1 then Except.ok [⟨SegPath.orig, 0, duration⟩]
  else
    match exportSegs primaryOk fallbackOk 0 (cutPairs (0 :: boundaries)) with
    | Except.error u => Except.error u
    | Except.ok segments =>
      if segments = [] then Except.ok [⟨SegPath.orig, 0, duration⟩]
      else Except.ok segments

/-- Embeds `bytes_per_ms` (utils.py lines 191-194): file size divided by
`max duration_ms 1`. -/
def bytes_per_ms (size duration_ms : ℕ) : ℚ := (size : ℚ) / (max duration_ms 1 : ℕ)

/-- Python `int(...)` on a finite number: truncation toward zero.  For a
non-negative rational this is `q.num / q.den` (integer division of the
non-negative numerator by the positive denominator); the negative case
negates first.  Kernel-reducible; equal to `Int.floor` on non-negatives. -/
def pyInt (q : ℚ) : ℤ :=
  if q < 0 then -((-q).num / ((-q).den : ℤ)) else q.num / (q.den : ℤ)

/-- The derived fixed cutting interval of `split_mp3_under_limit`
(utils.py lines 209-210): `int(max_bytes / max(b_per_ms, 1e-6))`. -/
def maxMsOf (size duration_ms : ℕ) (target_mb : ℚ) : ℤ :=
  pyInt (target_mb * 1024 ^ 2 / max (bytes_per_ms size duration_ms) (1 / 1000000))

/-- The `while start < dur_ms` cutting loop of `split_mp3_under_limit`
(utils.py lines 218-225), fuel-based.  When `max_ms ≤ 0` the loop makes no
progress and no fuel suffices (`none` = the Python loop never terminates). -/
def splitGo (dur_ms : ℕ) (max_ms : ℤ) :
    ℕ → ℤ → ℕ → Option (List PreparedSegment)
  | 0, _, _ => none
  | fuel + 1, start, idx =>
    if start < (dur_ms : ℤ) then
      let e := iMin (start + max_ms) (dur_ms : ℤ)
      match splitGo dur_ms max_ms fuel e (idx + 1) with
      | none => none
      | some rest => some (⟨SegPath.part idx, (start : ℚ) / 1000, (e : ℚ) / 1000⟩ :: rest)
    else some []

/-- Embeds `split_mp3_under_limit` (utils.py lines 197-226), with the decoded audio
abstracted into `size` (bytes of the source file) and `dur_ms` (decoded
duration in milliseconds). -/
def split_mp3_under_limit (size dur_ms : ℕ) (target_mb : ℚ) :
    Option (List PreparedSegment) :=
  let max_bytes := target_mb * 1024 ^ 2
  let max_ms := maxMsOf size dur_ms target_mb
  if (size : ℚ) ≤ max_bytes then some [⟨SegPath.orig, 0, (dur_ms : ℚ) / 1000⟩]
  else splitGo dur_ms max_ms (dur_ms + 1) 0 1

/-- Constant `MAX_UPLOAD_MB` (constants.py). -/
def MAX_UPLOAD_MB : ℕ := 25

/-- Constant `SAFETY_MB` (constants.py). -/
def SAFETY_MB : ℚ := 23

/-- An element of the list actually returned by `AudioProcessor.prepare_audio`:
either a proper `PreparedSegment` or — on the no-ffmpeg small-file path of
audio_processor.py line 48 — a bare file path with no timing metadata. -/
inductive PreparedOrPath
  | seg (s : PreparedSegment)
  | raw (p : SegPath)
deriving DecidableEq, Repr

/-- Whether a returned element is a genuine `PreparedSegment`. -/
def PreparedOrPath.isSeg : PreparedOrPath → Bool
  | PreparedOrPath.seg _ => true
  | PreparedOrPath.raw _ => false

/-- The external-world inputs of one `prepare_audio` call: availability of
ffmpeg, source file size, decoded durations, the silence markers of the
re-encoded file, success of the re-encode step, and the export oracles of the
silence splitter. -/
structure AudioEnv where
  ffmpegAvail : Bool
  srcSize : ℕ
  srcDurMs : ℕ
  reencodeOk : Bool
  mp3Size : ℕ
  mp3DurMs : ℕ
  markers : SilenceMarkers
  primaryOk : ℕ → Bool
  fallbackOk : ℕ → Bool

/-- Embeds `AudioProcessor.prepare_audio` (audio_processor.py lines 23-84).
`none` models non-termination (of the size-based cutting loop);
`some (Except.error _)` models a raised exception.  On the branch
`reencode ∧ ¬ffmpeg ∧ srcSize ≤ 25MB` the source returns `[src_path]` — a bare
path, modelled as `PreparedOrPath.raw` — instead of a `PreparedSegment`. -/
def prepare_audio (env : AudioEnv) (reencode : Bool) (cap_mb : ℚ)
    (use_silence_splitting : Bool) (target_chunk_seconds max_extension_seconds : ℚ) :
    Option (Except String (List PreparedOrPath)) :=
  if reencode then
    if ¬ env.ffmpegAvail then
      if env.srcSize ≤ MAX_UPLOAD_MB * 1024 ^ 2 then
        some (Except.ok [PreparedOrPath.raw SegPath.orig])
      else
        some (Except.error ("ffmpeg not found and file exceeds upload cap. Install ffmpeg or upload a smaller file."))
    else if ¬ env.reencodeOk then
      some (Except.error ("Both ffmpeg and pydub conversion failed."))
    else if use_silence_splitting then
      match split_mp3_by_silence ((env.mp3DurMs : ℚ) / 1000) env.markers
          target_chunk_seconds max_extension_seconds env.primaryOk env.fallbackOk with
      | Except.error _ => some (Except.error ("Fallback export failed for segment"))
      | Except.ok segs => some (Except.ok (segs.map PreparedOrPath.seg))
    else
      match split_mp3_under_limit env.mp3Size env.mp3DurMs cap_mb with
      | none => none
      | some segs => some (Except.ok (segs.map PreparedOrPath.seg))
  else
    if SAFETY_MB * 1024 ^ 2 < (env.srcSize : ℚ) then
      some (Except.error ("File exceeds size cap and re-encoding is disabled. Enable re-encoding or upload a smaller file."))
    else
      some (Except.ok [PreparedOrPath.seg ⟨SegPath.orig, 0, (env.srcDurMs : ℚ) / 1000⟩])

/-- Error classification of `classify_error` (scoring.py lines 207-215). -/
inductive ErrKind
  | rate_limit
  | timeout
  | schema
  | other
deriving DecidableEq, Repr

/-- One criterion entry of a section payload (scoring.py `_section_schema`). -/
structure CriterionPayload where
  id : String
  status : String
  rationale : String
  action_items : List String
  score : Option ℚ
  weight : Option ℚ
deriving DecidableEq, Repr

/-- The `{name, weight, criteria}` record produced per template category by
`_extract_sections` (scoring.py lines 448-458); also the `section` dict of a
section payload.  Criterion *specifications* are opaque descriptors here. -/
structure SectionMeta where
  name : String
  weight : Option ℚ
  criteria : List String
deriving DecidableEq, Repr

/-- One section scoring payload, per `_section_schema` (scoring.py
lines 402-446): the keys read downstream by `_aggregate_sections` plus the
fields set by the neutral fallback. -/
structure SectionPayload where
  section_ : SectionMeta
  criteria : List CriterionPayload
  sectionScore : Option ℚ
  sectionMax : Option ℚ
  findings : List String
  suggestedImprovements : List String
deriving DecidableEq, Repr

/-- The neutral placeholder payload built on final failure of a section task
(scoring.py lines 312-323). -/
def neutralPayload (sections : List SectionMeta) (i : ℕ) : SectionPayload :=
  { section_ := sections.getD i ⟨"", none, []⟩
    criteria := []
    sectionScore := none
    sectionMax := none
    findings := []
    suggestedImprovements := ["Automatic fallback due to repeated errors"] }

/-- Python `sec_meta.get("weight") or 1.0` (scoring.py line 468): a missing
weight, and a weight of exactly 0 (falsy in Python), are both replaced by 1. -/
def effWeight : Option ℚ → ℚ
  | none => 1
  | some w => if w = 0 then 1 else w

/-- One aggregated category dict (scoring.py lines 483-492). -/
structure Category where
  name : String
  status : String
  rationale : String
  criteria : List CriterionPayload
  score : Option ℚ
  weight : ℚ
deriving DecidableEq, Repr

/-- The aggregated scorecard dict returned by `_aggregate_sections`
(scoring.py lines 498-504). -/
structure Aggregated where
  overall_status : String
  overall_score : Option ℚ
  summary : String
  categories : List Category
  recommendations : List String
deriving DecidableEq, Repr

/-- The category dict built for one section payload by `_aggregate_sections`
(scoring.py lines 483-492); `status` reflects Python's
`"pass" if (score or 0) >= 0 else "unknown"`. -/
def aggCat (sec : SectionPayload) : Category :=
  { name := sec.section_.name
    status := if 0 ≤ sec.sectionScore.getD 0 then ("pass") else ("unknown")
    rationale := ""
    criteria := sec.criteria
    score := sec.sectionScore
    weight := effWeight sec.section_.weight }

/-- The per-section body of the `_aggregate_sections` loop (scoring.py
lines 465-496): one category plus this section's contribution to
`total` / `total_weight` (zero when `sectionScore` is null). -/
def aggStep (acc : List Category × ℚ × ℚ) (sec : SectionPayload) :
    List Category × ℚ × ℚ :=
  match sec.sectionScore with
  | some sc => (acc.1 ++ [aggCat sec], acc.2.1 + sc * effWeight sec.section_.weight,
      acc.2.2 + effWeight sec.section_.weight)
  | none => (acc.1 ++ [aggCat sec], acc.2.1, acc.2.2)

/-- Embeds `ComplianceScorer._aggregate_sections` (scoring.py lines 460-504). -/
def _aggregate_sections (section_payloads : List SectionPayload) : Aggregated :=
  let r := section_payloads.foldl aggStep ([], 0, 0)
  let overall_score : Option ℚ := if 0 < r.2.2 then some (r.2.1 / r.2.2) else none
  { overall_status := if 0 < overall_score.getD 0 then ("pass") else ("unknown")
    overall_score := overall_score
    summary := "Aggregated from sectional analysis."
    categories := r.1
    recommendations := [] }

/-- The outcome of one `run_one` call (scoring.py lines 231-266) for a given
task: a section payload, or a raised error of some classified kind.  The
internal `_with_retries` of `run_one` is behind this boundary. -/
inductive RunOutcome
  | ok (p : SectionPayload)
  | err (k : ErrKind)

/-- The per-section `Task` dataclass of the sectional path (scoring.py
lines 180-184); the section itself is recovered from its index.  Core Lean
already has a `Task`, so the source's class name `Task` becomes `SecTask`. -/
structure SecTask where
  index : ℕ
  attempts : ℕ
deriving DecidableEq, Repr

/-- Source expression `max_attempts = max(2, self.max_retries + 1)` (scoring.py line 224). -/
def maxAttempts (max_retries : ℕ) : ℕ := max 2 (max_retries + 1)

/-- Source expression `self.concurrency = max(1, int(concurrency))` (scoring.py line 124). -/
def scorerConcurrency (raw : ℤ) : ℕ := (max 1 raw).toNat

/-- Embeds `pick_initial_concurrency` (scoring.py lines 218-222). -/
def pick_initial_concurrency (selfConc n : ℕ) : ℕ :=
  if 0 < selfConc then selfConc else min 3 (max 1 n)

/-- The coordinating-loop state of the sectional path of
`ComplianceScorer.evaluate` (scoring.py lines 226-326): the pending deque, the
in-flight set (in submission order), the adaptive concurrency permit count,
the accumulated `section_results` (tagged with the index of the task that
produced each, for bookkeeping), and the log of back-off sleeps performed.
The observer-only `statuses` map is not modelled. -/
structure RunState where
  pending : List SecTask
  inFlight : List SecTask
  concurrency : ℕ
  results : List (ℕ × SectionPayload)
  sleeps : List ℚ

/-- The admission loop `while pending and len(in_flight) < concurrency`
(scoring.py lines 272-276): move tasks from the front of the pending deque to
the in-flight set until it is full. -/
def admitGo : List SecTask → List SecTask → ℕ → List SecTask × List SecTask
  | [], infl, _ => ([], infl)
  | t :: ps, infl, conc =>
    if infl.length < conc then admitGo ps (infl ++ [t]) conc
    else (t :: ps, infl)

/-- Handling of one completed future (scoring.py lines 292-325), for the task
`t` already removed from the in-flight set: on success append the payload to
the results; on failure increment the attempt count, shrink the concurrency
permit count by one on a rate-limit classification (never below 1), then
either sleep `min(2·attempts, 5)` and re-admit the task at the front of the
pending deque, or — once `max_attempts` is exhausted — append the neutral
placeholder payload. -/
def handleOne (oracle : ℕ → ℕ → RunOutcome) (sections : List SectionMeta)
    (max_attempts : ℕ) (t : SecTask) (s : RunState) : RunState :=
  match oracle t.index t.attempts with
  | RunOutcome.ok p => { s with results := s.results ++ [(t.index, p)] }
  | RunOutcome.err k =>
    if t.attempts + 1 < max_attempts then
      { s with concurrency := if k = ErrKind.rate_limit ∧ 1 < s.concurrency then
            s.concurrency - 1 else s.concurrency
               sleeps := s.sleeps ++ [pyMin (2 * ((t.attempts + 1 : ℕ) : ℚ)) 5]
               pending := ⟨t.index, t.attempts + 1⟩ :: s.pending }
    else
      { s with concurrency := if k = ErrKind.rate_limit ∧ 1 < s.concurrency then
            s.concurrency - 1 else s.concurrency
               results := s.results ++ [(t.index, neutralPayload sections t.index)] }

/-- One iteration of the scheduling loop `while pending or in_flight`
(scoring.py lines 270-326): admit pending tasks up to the permit count, then
wait for one in-flight task to complete and handle it.  Which in-flight task
completes first is chosen by the adversarial schedule `pick` (via a rotation
of the in-flight list).  `none` means the loop exits. -/
def stepRun (oracle : ℕ → ℕ → RunOutcome) (pick : ℕ → ℕ)
    (sections : List SectionMeta) (max_attempts : ℕ) (k : ℕ) (s : RunState) :
    Option RunState :=
  let pi := admitGo s.pending s.inFlight s.concurrency
  match (pi.2).rotate (pick k) with
  | [] => none
  | t :: rest =>
    some (handleOne oracle sections max_attempts t
      { s with pending := pi.1, inFlight := rest })

/-- The scheduling loop, fuel-based; `k` numbers the iterations for the
schedule oracle. -/
def runGo (oracle : ℕ → ℕ → RunOutcome) (pick : ℕ → ℕ)
    (sections : List SectionMeta) (max_attempts : ℕ) :
    ℕ → ℕ → RunState → RunState
  | 0, _, s => s
  | fuel + 1, k, s =>
    match stepRun oracle pick sections max_attempts k s with
    | none => s
    | some s' => runGo oracle pick sections max_attempts fuel (k + 1) s'

/-- The initial run state (scoring.py line 226): one queued task per section,
attempts 0. -/
def initState (sections : List SectionMeta) (conc : ℕ) : RunState :=
  { pending := (List.range sections.length).map fun i => ⟨i, 0⟩
    inFlight := []
    concurrency := conc
    results := []
    sleeps := [] }

/-- The sectional path of `ComplianceScorer.evaluate` (scoring.py
lines 175-334) up to aggregation: run the scheduling loop to completion.  The
fuel `n·max_attempts + 1` is sufficient (proved below): every handled
completion strictly decreases the total remaining attempt budget. -/
def evaluate_sectional (oracle : ℕ → ℕ → RunOutcome) (pick : ℕ → ℕ)
    (sections : List SectionMeta) (max_retries : ℕ) (rawConc : ℤ) : RunState :=
  let ma := maxAttempts max_retries
  let conc := pick_initial_concurrency (scorerConcurrency rawConc) sections.length
  runGo oracle pick sections ma (sections.length * ma + 1) 0 (initState sections conc)

/-- Embeds `evaluate`'s final aggregation of the sectional path (scoring.py
line 329). -/
def evaluateAggregated (oracle : ℕ → ℕ → RunOutcome) (pick : ℕ → ℕ)
    (sections : List SectionMeta) (max_retries : ℕ) (rawConc : ℤ) : Aggregated :=
  _aggregate_sections
    ((evaluate_sectional oracle pick sections max_retries rawConc).results.map Prod.snd)

/-- One transcript segment as read by `_build_transcript_digest`
(scoring.py lines 33-37).  Python strings are modelled as `List Char`. -/
structure TranscriptSeg where
  start_sec : Option ℚ
  end_sec : Option ℚ
  text : List Char

/-- The transcript document `{text, segments}` (scoring.py lines 26-48). -/
structure Transcript where
  text : List Char
  segments : List TranscriptSeg

/-- Zero-padded two-digit rendering of a natural number (`{:02d}`). -/
def twoDigits (n : ℕ) : List Char :=
  let d := Nat.toDigits 10 n
  if d.length < 2 then ('0') :: d else d

/-- Format `secs` as Python `05.2f`: seconds with two decimals, zero-padded to width 5.
Exact decimal rounding of the rational stands in for IEEE-float formatting;
only the shape of the string matters to the claims. -/
def fmtSecs (secs : ℚ) : List Char :=
  let cents := (round (secs * 100) : ℤ).toNat
  twoDigits (cents / 100) ++ ('.') :: twoDigits (cents % 100)

/-- Embeds `_format_ts` (scoring.py lines 17-23). -/
def _format_ts (value : Option ℚ) : List Char :=
  match value with
  | none => ("--:--").toList
  | some v =>
    let seconds := max 0 v
    let totalMins : ℤ := Int.floor (seconds / 60)
    let secs := seconds - (totalMins : ℚ) * 60
    let hours : ℤ := Int.floor ((totalMins : ℚ) / 60)
    let mins : ℤ := totalMins - hours * 60
    twoDigits hours.toNat ++ (':') :: twoDigits mins.toNat ++ (':') :: fmtSecs secs

/-- Python `str.strip()`: drop whitespace from both ends. -/
def stripChars (l : List Char) : List Char :=
  ((l.dropWhile Char.isWhitespace).reverse.dropWhile Char.isWhitespace).reverse

/-- The digest line `[start-end] text` (scoring.py line 37). -/
def digestLine (seg : TranscriptSeg) (text : List Char) : List Char :=
  ('[') :: _format_ts seg.start_sec ++ ('-') :: _format_ts seg.end_sec
    ++ (']') :: (' ') :: text

/-- The segment loop of `_build_transcript_digest` (scoring.py lines 33-44):
`used` counts the characters consumed so far (each full line plus one for its
separating newline); the line that would exceed the budget is truncated to the
remaining room and ends the loop. -/
def digestGo (max_chars : ℕ) : List TranscriptSeg → ℕ → List (List Char)
  | [], _ => []
  | seg :: rest, used =>
    let text := stripChars seg.text
    if text = [] then digestGo max_chars rest used
    else
      let line := digestLine seg text
      if max_chars < used + line.length then
        if 0 < max_chars - used then [line.take (max_chars - used)] else []
      else line :: digestGo max_chars rest (used + line.length + 1)

/-- Python `"\n".join(lines)`. -/
def joinNL : List (List Char) → List Char
  | [] => []
  | [l] => l
  | l :: ls => l ++ ('\n') :: joinNL ls

/-- Embeds `_build_transcript_digest` (scoring.py lines 26-48); `max_chars` defaults
to 12000 at the call site.  When no segment produced a line and the raw text
is non-empty, the raw text sliced to `max_chars` is the single line. -/
def _build_transcript_digest (transcript : Transcript) (max_chars : ℕ) : List Char :=
  let lines := digestGo max_chars transcript.segments 0
  if lines = [] ∧ transcript.text ≠ [] then joinNL [transcript.text.take max_chars]
  else joinNL lines

/-- The tasks still owned by the scheduler (queued or in flight). -/
def liveTasks (s : RunState) : List SecTask := s.pending ++ s.inFlight

/-- Total remaining attempt budget of the live tasks: the termination measure
of the scheduling loop. -/
def runMeasure (ma : ℕ) (s : RunState) : ℕ :=
  ((liveTasks s).map fun t => ma - t.attempts).sum

/-- A value qualifying as a silence-end candidate in `_select_boundary`. -/
def isEndCand (markers : SilenceMarkers) (target last_boundary max_extension v : ℚ) : Prop :=
  v ∈ markers.end_ ∧ target ≤ v ∧ v ≤ target + max_extension ∧ 1 ≤ v - last_boundary

/-- A value qualifying as a silence-start candidate in `_select_boundary`. -/
def isStartCand (markers : SilenceMarkers) (target last_boundary max_extension v : ℚ) : Prop :=
  v ∈ markers.start ∧ target ≤ v ∧ v ≤ target + max_extension ∧ 1 ≤ v - last_boundary

/-- The invariant of the boundary loop, relative to the current
`last_boundary`: the produced list ends in `duration`, its elements lie in
`(last_boundary, duration]`, consecutive elements are at least 1 apart, and
it is either exactly `[duration]` or starts at least 1 above `last_boundary`
and strictly below `duration - 1`. -/
def csbInv (D last : ℚ) (L : List ℚ) : Prop :=
  L.getLast? = some D ∧ (∀ e ∈ L, last < e ∧ e ≤ D) ∧
  List.Chain' (fun a b => a + 1 ≤ b) L ∧
  (L = [D] ∨ ∃ hd tl, L = hd :: tl ∧ last + 1 ≤ hd ∧ hd < D - 1)

lemma pyMax_eq (a b : ℚ) : pyMax a b = max a b := by
  rw [pyMax, max_def]

lemma pyMin_eq (a b : ℚ) : pyMin a b = min a b := by
  rw [pyMin, min_def]

lemma iMin_eq (a b : ℤ) : iMin a b = min a b := by
  rw [iMin, min_def]

lemma pyAbs_eq (a : ℚ) : pyAbs a = |a| := by
  unfold pyAbs
  split
  · next h => rw [abs_of_neg h]
  · next h => rw [abs_of_nonneg (not_lt.mp h)]

lemma pyInt_eq_floor {q : ℚ} (h : 0 ≤ q) : pyInt q = Int.floor q := by
  rw [pyInt, if_neg (not_lt.mpr h), Rat.floor_def]

lemma tripleLE_refl (a : ℚ × ℕ × ℚ) : tripleLE a a := by
  right; exact ⟨rfl, Or.inr ⟨rfl, le_refl _⟩⟩

lemma tripleLE_total (a b : ℚ × ℕ × ℚ) : tripleLE a b ∨ tripleLE b a := by
  rcases lt_trichotomy a.1 b.1 with h | h | h
  · exact Or.inl (Or.inl h)
  · rcases lt_trichotomy a.2.1 b.2.1 with h2 | h2 | h2
    · exact Or.inl (Or.inr ⟨h, Or.inl h2⟩)
    · rcases le_total a.2.2 b.2.2 with h3 | h3
      · exact Or.inl (Or.inr ⟨h, Or.inr ⟨h2, h3⟩⟩)
      · exact Or.inr (Or.inr ⟨h.symm, Or.inr ⟨h2.symm, h3⟩⟩)
    · exact Or.inr (Or.inr ⟨h.symm, Or.inl h2⟩)
  · exact Or.inr (Or.inl h)

lemma tripleLE_trans {a b c : ℚ × ℕ × ℚ} (hab : tripleLE a b) (hbc : tripleLE b c) :
    tripleLE a c := by
  rcases hab with h | ⟨h1, h2⟩
  · rcases hbc with h' | ⟨h1', _⟩
    · exact Or.inl (h.trans h')
    · exact Or.inl (h1' ▸ h)
  · rcases hbc with h' | ⟨h1', h2'⟩
    · exact Or.inl (h1 ▸ h')
    · refine Or.inr ⟨h1.trans h1', ?_⟩
      rcases h2 with h2 | ⟨h2a, h2b⟩
      · rcases h2' with h2' | ⟨h2a', _⟩
        · exact Or.inl (h2.trans h2')
        · exact Or.inl (h2a' ▸ h2)
      · rcases h2' with h2' | ⟨h2a', h2b'⟩
        · exact Or.inl (h2a ▸ h2')
        · exact Or.inr ⟨h2a.trans h2a', h2b.trans h2b'⟩

lemma tripleLE_fst {a b : ℚ × ℕ × ℚ} (h : tripleLE a b) : a.1 ≤ b.1 := by
  rcases h with h | ⟨h, _⟩
  · exact le_of_lt h
  · exact le_of_eq h

lemma tripleMin_eq_or (a b : ℚ × ℕ × ℚ) : tripleMin a b = a ∨ tripleMin a b = b := by
  unfold tripleMin; split <;> simp

lemma tripleMin_le_left (a b : ℚ × ℕ × ℚ) : tripleLE (tripleMin a b) a := by
  unfold tripleMin; split
  · exact tripleLE_refl a
  · next h =>
      rcases tripleLE_total a b with h' | h'
      · exact absurd h' h
      · exact h'

lemma tripleMin_le_right (a b : ℚ × ℕ × ℚ) : tripleLE (tripleMin a b) b := by
  unfold tripleMin; split
  · next h => exact h
  · exact tripleLE_refl b

lemma foldl_tripleMin_mem (cs : List (ℚ × ℕ × ℚ)) : ∀ (a : ℚ × ℕ × ℚ),
    cs.foldl tripleMin a ∈ a :: cs := by
  induction cs with
  | nil => intro a; simp
  | cons c cs ih =>
    intro a
    rw [List.foldl_cons]
    rcases List.mem_cons.mp (ih (tripleMin a c)) with h | h
    · rcases tripleMin_eq_or a c with h2 | h2
      · rw [h, h2]; exact List.mem_cons_self _ _
      · rw [h, h2]
        exact List.mem_cons_of_mem _ (List.mem_cons_self _ _)
    · exact List.mem_cons_of_mem _ (List.mem_cons_of_mem _ h)

lemma foldl_tripleMin_le (cs : List (ℚ × ℕ × ℚ)) : ∀ (a : ℚ × ℕ × ℚ),
    ∀ x ∈ a :: cs, tripleLE (cs.foldl tripleMin a) x := by
  induction cs with
  | nil =>
    intro a x hx
    rw [List.mem_singleton] at hx
    subst hx
    exact tripleLE_refl _
  | cons c cs ih =>
    intro a x hx
    rw [List.foldl_cons]
    rcases List.mem_cons.mp hx with h | h
    · subst h
      exact tripleLE_trans (ih (tripleMin x c) _ (List.mem_cons_self _ _))
        (tripleMin_le_left x c)
    · rcases List.mem_cons.mp h with h | h
      · subst h
        exact tripleLE_trans (ih (tripleMin a x) _ (List.mem_cons_self _ _))
          (tripleMin_le_right a x)
      · exact ih (tripleMin a c) _ (List.mem_cons_of_mem _ h)

lemma minCandidate_mem {l : List (ℚ × ℕ × ℚ)} {c : ℚ × ℕ × ℚ}
    (h : minCandidate l = some c) : c ∈ l := by
  match l with
  | [] => simp [minCandidate] at h
  | a :: cs =>
    simp only [minCandidate, Option.some.injEq] at h
    subst h
    exact foldl_tripleMin_mem cs a

lemma minCandidate_le {l : List (ℚ × ℕ × ℚ)} {c : ℚ × ℕ × ℚ}
    (h : minCandidate l = some c) : ∀ x ∈ l, tripleLE c x := by
  match l with
  | [] => simp [minCandidate] at h
  | a :: cs =>
    simp only [minCandidate, Option.some.injEq] at h
    subst h
    exact foldl_tripleMin_le cs a

lemma minCandidate_isSome {l : List (ℚ × ℕ × ℚ)} (h : l ≠ []) :
    ∃ c, minCandidate l = some c := by
  match l with
  | [] => exact absurd rfl h
  | a :: cs => exact ⟨_, rfl⟩

lemma mem_filterMap_cand {lst : List ℚ} {t last ext : ℚ} {tag : ℕ} {c : ℚ × ℕ × ℚ} :
    c ∈ lst.filterMap (fun v =>
      if t ≤ v ∧ v ≤ t + ext ∧ 1 ≤ v - last then some (pyAbs (v - t), tag, v) else none) ↔
    ∃ v ∈ lst, (t ≤ v ∧ v ≤ t + ext ∧ 1 ≤ v - last) ∧ c = (pyAbs (v - t), tag, v) := by
  rw [List.mem_filterMap]
  constructor
  · rintro ⟨v, hv, hc⟩
    by_cases h : t ≤ v ∧ v ≤ t + ext ∧ 1 ≤ v - last
    · rw [if_pos h] at hc
      exact ⟨v, hv, h, (Option.some_inj.mp hc).symm⟩
    · rw [if_neg h] at hc
      cases hc
  · rintro ⟨v, hv, h, rfl⟩
    exact ⟨v, hv, by rw [if_pos h]⟩

lemma mem_candidateList {t last ext : ℚ} {m : SilenceMarkers} {c : ℚ × ℕ × ℚ} :
    c ∈ candidateList t last m ext ↔
    ((∃ v, c = (pyAbs (v - t), 0, v) ∧ isEndCand m t last ext v) ∨
     (∃ v, c = (pyAbs (v - t), 1, v) ∧ isStartCand m t last ext v)) := by
  unfold candidateList isEndCand isStartCand
  rw [List.mem_append, mem_filterMap_cand, mem_filterMap_cand]
  constructor
  · rintro (⟨v, hv, h, rfl⟩ | ⟨v, hv, h, rfl⟩)
    · exact Or.inl ⟨v, rfl, hv, h⟩
    · exact Or.inr ⟨v, rfl, hv, h⟩
  · rintro (⟨v, rfl, hv, h⟩ | ⟨v, rfl, hv, h⟩)
    · exact Or.inl ⟨v, hv, h, rfl⟩
    · exact Or.inr ⟨v, hv, h, rfl⟩

/-- C5.  In `_select_boundary`, among all qualifying candidate markers
(`target ≤ v ≤ target + max_extension`, `v - last_boundary ≥ 1`): the selected
boundary is itself a qualifying marker; it minimises the distance to `target`
over all qualifying markers; whenever some silence-end marker attains a
distance no larger than the selection's, the selection is a silence-end
candidate (end markers beat start markers at equal distance); and on the
concrete example `starts = [590]`, `ends = [605, 1210]`, `target = 600`,
`max_extension = 180`, `last_boundary = 0`, the selected boundary is 605,
not 590. -/
theorem select_boundary_prefers_end (target last ext : ℚ) (m : SilenceMarkers)
    (hne : ∃ v, isEndCand m target last ext v ∨ isStartCand m target last ext v) :
    (isEndCand m target last ext (_select_boundary target last m ext) ∨
      isStartCand m target last ext (_select_boundary target last m ext)) ∧
    (∀ v, isEndCand m target last ext v ∨ isStartCand m target last ext v →
      |_select_boundary target last m ext - target| ≤ |v - target|) ∧
    (∀ v, isEndCand m target last ext v →
      |v - target| ≤ |_select_boundary target last m ext - target| →
      isEndCand m target last ext (_select_boundary target last m ext)) ∧
    _select_boundary 600 0 ⟨[590], [605, 1210]⟩ 180 = 605 := by
  obtain ⟨v₀, hv₀⟩ := hne
  have hlne : candidateList target last m ext ≠ [] := by
    rcases hv₀ with h | h
    · have hm := mem_candidateList.mpr (Or.inl ⟨v₀, rfl, h⟩)
      intro hl
      rw [hl] at hm
      exact List.not_mem_nil _ hm
    · have hm := mem_candidateList.mpr (Or.inr ⟨v₀, rfl, h⟩)
      intro hl
      rw [hl] at hm
      exact List.not_mem_nil _ hm
  obtain ⟨c, hc⟩ := minCandidate_isSome hlne
  have hcmem := minCandidate_mem hc
  have hcle := minCandidate_le hc
  have hsel : _select_boundary target last m ext = c.2.2 := by
    unfold _select_boundary
    rw [hc]
  have hcchar := mem_candidateList.mp hcmem
  have hcfst : c.1 = |c.2.2 - target| := by
    rcases hcchar with ⟨v, hv, _⟩ | ⟨v, hv, _⟩ <;> rw [hv] <;> exact pyAbs_eq _
  have hccand : isEndCand m target last ext c.2.2 ∨ isStartCand m target last ext c.2.2 := by
    rcases hcchar with ⟨v, hv, h⟩ | ⟨v, hv, h⟩
    · left; rw [hv]; exact h
    · right; rw [hv]; exact h
  have hmin : ∀ v, isEndCand m target last ext v ∨ isStartCand m target last ext v →
      |_select_boundary target last m ext - target| ≤ |v - target| := by
    intro v hv
    rw [hsel]
    rcases hv with h | h
    · have hvmem := mem_candidateList.mpr (Or.inl ⟨v, rfl, h⟩)
      have hle := tripleLE_fst (hcle _ hvmem)
      rw [hcfst, pyAbs_eq] at hle
      exact hle
    · have hvmem := mem_candidateList.mpr (Or.inr ⟨v, rfl, h⟩)
      have hle := tripleLE_fst (hcle _ hvmem)
      rw [hcfst, pyAbs_eq] at hle
      exact hle
  refine ⟨by rw [hsel]; exact hccand, hmin, ?_, ?_⟩
  swap
  · norm_num [_select_boundary, candidateList, minCandidate, pyMax, pyAbs, tripleMin,
      tripleLE, List.filterMap_cons, List.foldl]
  intro v hvend hvle
  have hvmem := mem_candidateList.mpr (Or.inl ⟨v, rfl, hvend⟩)
  have hle := hcle _ hvmem
  rw [hsel] at hvle
  rcases hle with hlt | ⟨heq, hrest⟩
  · rw [hcfst, pyAbs_eq] at hlt
    exact absurd hvle (not_le.mpr hlt)
  · have htag : c.2.1 = 0 := by
      rcases hrest with h | ⟨h, _⟩
      · exact absurd h (Nat.not_lt_zero _)
      · exact h
    rcases hcchar with ⟨w, hw, h⟩ | ⟨w, hw, h⟩
    · rw [hsel, hw]
      exact h
    · rw [hw] at htag
      cases htag

lemma csbGo_succ (m : SilenceMarkers) (D T ext : ℚ) (fuel : ℕ) (last target : ℚ) :
    csbGo m D T ext (fuel + 1) last target =
      if target < D - 1 then
        if D - 1 ≤ pyMin (_select_boundary target last m ext) D then [D]
        else if pyMin (_select_boundary target last m ext) D - last < 1 then
          if D - 1 ≤ pyMin D (last + pyMax 1 (T / 4)) then [D]
          else pyMin D (last + pyMax 1 (T / 4)) ::
            csbGo m D T ext fuel (pyMin D (last + pyMax 1 (T / 4)))
              (pyMin D (last + pyMax 1 (T / 4)) + T)
        else pyMin (_select_boundary target last m ext) D ::
          csbGo m D T ext fuel (pyMin (_select_boundary target last m ext) D)
            (pyMin (_select_boundary target last m ext) D + T)
      else [D] := rfl

lemma csbInv_singleton {D last : ℚ} (hlast : last < D) : csbInv D last [D] := by
  refine ⟨rfl, ?_, ?_, Or.inl rfl⟩
  · intro e he
    rw [List.mem_singleton] at he
    subst he
    exact ⟨hlast, le_refl _⟩
  · simp

lemma csbInv_cons {D last b : ℚ} {L : List ℚ} (hb1 : last + 1 ≤ b) (hb2 : b < D - 1)
    (hL : csbInv D b L) : csbInv D last (b :: L) := by
  obtain ⟨hlastq, helem, hchain, hshape⟩ := hL
  have hbD : b < D := by linarith
  have hLne : L ≠ [] := by
    intro h
    rw [h] at hlastq
    cases hlastq
  obtain ⟨x, xs, rfl⟩ := List.exists_cons_of_ne_nil hLne
  refine ⟨?_, ?_, ?_, Or.inr ⟨b, x :: xs, rfl, hb1, hb2⟩⟩
  · rw [List.getLast?_cons_cons]
    exact hlastq
  · intro e he
    rcases List.mem_cons.mp he with rfl | he
    · exact ⟨by linarith, le_of_lt hbD⟩
    · obtain ⟨h1, h2⟩ := helem e he
      exact ⟨by linarith, h2⟩
  · rw [List.chain'_cons]
    refine ⟨?_, hchain⟩
    rcases hshape with h | ⟨hd, tl, heq, hhd1, hhd2⟩
    · injection h with h1 h2
      subst h1
      linarith
    · injection heq with h1 h2
      subst h1
      exact hhd1

lemma csbGo_inv (m : SilenceMarkers) (D T ext : ℚ) :
    ∀ (fuel : ℕ) (last target : ℚ), last < D →
      csbInv D last (csbGo m D T ext fuel last target) := by
  intro fuel
  induction fuel with
  | zero =>
    intro last target hlast
    exact csbInv_singleton hlast
  | succ fuel ih =>
    intro last target hlast
    rw [csbGo_succ]
    by_cases h1 : target < D - 1
    · rw [if_pos h1]
      by_cases h2 : D - 1 ≤ pyMin (_select_boundary target last m ext) D
      · rw [if_pos h2]
        exact csbInv_singleton hlast
      · rw [if_neg h2]
        have hb2 : pyMin (_select_boundary target last m ext) D < D - 1 := not_le.mp h2
        by_cases h3 : pyMin (_select_boundary target last m ext) D - last < 1
        · rw [if_pos h3]
          by_cases h4 : D - 1 ≤ pyMin D (last + pyMax 1 (T / 4))
          · rw [if_pos h4]
            exact csbInv_singleton hlast
          · rw [if_neg h4]
            have hb'lt : pyMin D (last + pyMax 1 (T / 4)) < D - 1 := not_le.mp h4
            have hx : pyMin D (last + pyMax 1 (T / 4)) = last + pyMax 1 (T / 4) := by
              rw [pyMin_eq]
              rcases le_total D (last + pyMax 1 (T / 4)) with h | h
              · exfalso
                rw [pyMin_eq, min_eq_left h] at hb'lt
                linarith
              · exact min_eq_right h
            have hb'1 : last + 1 ≤ pyMin D (last + pyMax 1 (T / 4)) := by
              rw [hx, pyMax_eq]
              have := le_max_left (1 : ℚ) (T / 4)
              linarith
            exact csbInv_cons hb'1 hb'lt (ih _ _ (by linarith))
        · rw [if_neg h3]
          have hb1 : last + 1 ≤ pyMin (_select_boundary target last m ext) D := by
            have := not_lt.mp h3
            linarith
          exact csbInv_cons hb1 hb2 (ih _ _ (by linarith))
    · rw [if_neg h1]
      exact csbInv_singleton hlast

/-- C2.  For positive duration and target and non-negative extension window,
the boundary list of `compute_silence_boundaries` is strictly increasing,
every element lies in `(0, duration]`, the last element equals `duration`,
and consecutive elements are at least 1 second apart. -/
theorem compute_silence_boundaries_invariants (duration : ℚ) (markers : SilenceMarkers)
    (target_seconds max_extension : ℚ) (hdur : 0 < duration) (_hT : 0 < target_seconds)
    (_hext : 0 ≤ max_extension) :
    List.Pairwise (· < ·)
      (compute_silence_boundaries duration markers target_seconds max_extension) ∧
    (∀ e ∈ compute_silence_boundaries duration markers target_seconds max_extension,
      0 < e ∧ e ≤ duration) ∧
    (compute_silence_boundaries duration markers target_seconds max_extension).getLast?
      = some duration ∧
    List.Chain' (fun a b => a + 1 ≤ b)
      (compute_silence_boundaries duration markers target_seconds max_extension) := by
  have hunf : compute_silence_boundaries duration markers target_seconds max_extension
      = csbGo markers duration target_seconds max_extension (csbFuel duration) 0
        target_seconds := by
    rw [compute_silence_boundaries, if_neg (not_le.mpr hdur)]
  obtain ⟨hlastq, helem, hchain, _⟩ :=
    csbGo_inv markers duration target_seconds max_extension (csbFuel duration) 0
      target_seconds hdur
  have hchain' : List.Chain' (· < ·)
      (csbGo markers duration target_seconds max_extension (csbFuel duration) 0
        target_seconds) :=
    hchain.imp (fun a b hab => by linarith)
  refine ⟨?_, ?_, ?_, ?_⟩
  · rw [hunf]
    exact List.chain'_iff_pairwise.mp hchain'
  · rw [hunf]
    exact helem
  · rw [hunf]
    exact hlastq
  · rw [hunf]
    exact hchain

/-- Witness for C2 at a concrete input: duration 30, markers
`starts = [5]`, `ends = [12]`, target 10, extension 3; the boundary list is
`[12, 22, 30]`. -/
theorem compute_silence_boundaries_invariants_witness :
    (compute_silence_boundaries 30 ⟨[5], [12]⟩ 10 3).getLast? = some 30 ∧
    List.Chain' (fun a b => a + 1 ≤ b) (compute_silence_boundaries 30 ⟨[5], [12]⟩ 10 3) ∧
    compute_silence_boundaries 30 ⟨[5], [12]⟩ 10 3 = [12, 22, 30] := by
  have h := compute_silence_boundaries_invariants 30 ⟨[5], [12]⟩ 10 3 (by norm_num)
    (by norm_num) (by norm_num)
  refine ⟨h.2.2.1, h.2.2.2, ?_⟩
  rw [compute_silence_boundaries, if_neg (by norm_num), show csbFuel 30 = 31 from rfl]
  rw [csbGo]
  norm_num [_select_boundary, candidateList, minCandidate, pyMax, pyMin, pyAbs, tripleMin,
    tripleLE, List.filterMap_cons, List.foldl]
  rw [csbGo]
  norm_num [_select_boundary, candidateList, minCandidate, pyMax, pyMin, pyAbs, tripleMin,
    tripleLE, List.filterMap_cons, List.foldl]
  rw [csbGo]
  norm_num [_select_boundary, candidateList, minCandidate, pyMax, pyMin, pyAbs, tripleMin,
    tripleLE, List.filterMap_cons, List.foldl]

/-- Witness for C5: on the markers `starts = [590]`, `ends = [605, 1210]`
with target 600, window 180, a qualifying candidate exists and the selected
boundary is itself a qualifying end candidate. -/
theorem select_boundary_prefers_end_witness :
    isEndCand ⟨[590], [605, 1210]⟩ 600 0 180 (_select_boundary 600 0 ⟨[590], [605, 1210]⟩ 180) ∨
    isStartCand ⟨[590], [605, 1210]⟩ 600 0 180 (_select_boundary 600 0 ⟨[590], [605, 1210]⟩ 180) :=
  (select_boundary_prefers_end 600 0 180 ⟨[590], [605, 1210]⟩
    ⟨605, Or.inl (by norm_num [isEndCand])⟩).1

lemma rat_le_ceil (q : ℚ) : q ≤ ((Rat.ceil q : ℤ) : ℚ) := by
  rw [Rat.ceil]
  split
  · next h =>
    conv_lhs => rw [← Rat.num_div_den q]
    rw [h]
    norm_num
  · next h =>
    have hfl := Int.lt_floor_add_one q
    rw [Rat.floor_def] at hfl
    push_cast at hfl ⊢
    linarith

lemma csbGo_empty (D T ext : ℚ) (hT : 1 ≤ T) :
    ∀ (fuel k : ℕ),
      csbGo ⟨[], []⟩ D T ext fuel ((k : ℚ) * T) (((k : ℚ) + 1) * T)
        = fixedSteps D T fuel k := by
  intro fuel
  induction fuel with
  | zero => intro k; rfl
  | succ fuel ih =>
    intro k
    rw [csbGo_succ, fixedSteps]
    by_cases hcond : ((k : ℚ) + 1) * T < D - 1
    · rw [if_pos hcond, if_pos hcond]
      have hb : pyMin (_select_boundary (((k : ℚ) + 1) * T) ((k : ℚ) * T) ⟨[], []⟩ ext) D
          = ((k : ℚ) + 1) * T := by
        show pyMin (pyMax (((k : ℚ) + 1) * T) ((k : ℚ) * T + 1)) D = ((k : ℚ) + 1) * T
        rw [pyMax_eq, pyMin_eq]
        have hexp : ((k : ℚ) + 1) * T = (k : ℚ) * T + T := by ring
        have h1 : (k : ℚ) * T + 1 ≤ ((k : ℚ) + 1) * T := by
          rw [hexp]
          linarith
        rw [max_eq_left h1, min_eq_left (by linarith)]
      rw [hb, if_neg (not_le.mpr hcond)]
      have hge : ¬(((k : ℚ) + 1) * T - (k : ℚ) * T < 1) := by
        have hexp : ((k : ℚ) + 1) * T - (k : ℚ) * T = T := by ring
        rw [hexp]
        exact not_lt.mpr hT
      rw [if_neg hge]
      have e2 : ((k : ℚ) + 1) * T + T = ((((k + 1) : ℕ) : ℚ) + 1) * T := by push_cast; ring
      have e1 : ((k : ℚ) + 1) * T = (((k + 1) : ℕ) : ℚ) * T := by push_cast; ring
      rw [e2, e1]
      exact congrArg _ (ih (k + 1))
    · rw [if_neg hcond, if_neg hcond]

lemma fixedSteps_eq_range (D T : ℚ) (m : ℕ)
    (hm : ∀ i : ℕ, i < m → ((i : ℚ) + 1) * T < D - 1)
    (hm2 : ¬(((m : ℚ) + 1) * T < D - 1)) :
    ∀ (fuel k : ℕ), k ≤ m → m ≤ k + fuel →
      fixedSteps D T fuel k
        = ((List.range (m - k)).map fun i => (((k + i : ℕ) : ℚ) + 1) * T) ++ [D] := by
  intro fuel
  induction fuel with
  | zero =>
    intro k hk1 hk2
    have hkm : m = k := by omega
    subst hkm
    simp [fixedSteps]
  | succ fuel ih =>
    intro k hk1 hk2
    rw [fixedSteps]
    rcases Nat.lt_or_ge k m with hkm | hkm
    · rw [if_pos (hm k hkm), ih (k + 1) hkm (by omega)]
      rw [show m - k = (m - (k + 1)) + 1 by omega]
      rw [List.range_succ_eq_map, List.map_cons, List.map_map, List.cons_append,
        List.cons_eq_cons]
      refine ⟨by push_cast; ring, ?_⟩
      refine congrArg (fun l => l ++ [D]) (List.map_congr_left ?_)
      intro i _
      simp only [Function.comp_apply]
      push_cast
      ring
    · have hkm' : k = m := by omega
      subst hkm'
      rw [if_neg hm2]
      simp

/-- C7 (amended: requires `target_seconds ≥ 1`).  With no silence markers,
`compute_silence_boundaries` returns exactly the multiples
`T, 2T, ...` of the target that lie below `duration - 1`, followed by
`duration`, with consecutive boundaries at least 1 second apart.  (For
`0 < T < 1` the claim as stated fails — see the counterexample — because the
forced-boundary fallback `max target (last + 1)` advances by 1, not by `T`.) -/
theorem compute_silence_boundaries_no_markers (D T ext : ℚ) (hD : 0 < D) (hT : 1 ≤ T) :
    ∃ m : ℕ,
      compute_silence_boundaries D ⟨[], []⟩ T ext
        = ((List.range m).map fun i : ℕ => ((i : ℚ) + 1) * T) ++ [D] ∧
      (∀ i : ℕ, i < m → ((i : ℚ) + 1) * T < D - 1) ∧
      ¬(((m : ℚ) + 1) * T < D - 1) ∧
      List.Chain' (fun a b => 1 ≤ b - a) (compute_silence_boundaries D ⟨[], []⟩ T ext) := by
  have hex : ∃ j : ℕ, ¬(((j : ℚ) + 1) * T < D - 1) := by
    obtain ⟨n, hn⟩ := exists_nat_ge (D - 1)
    refine ⟨n, not_lt.mpr ?_⟩
    have h1 : ((n : ℚ) + 1) * 1 ≤ ((n : ℚ) + 1) * T :=
      mul_le_mul_of_nonneg_left hT (by positivity)
    linarith
  set m := Nat.find hex with hmdef
  have hm2 := Nat.find_spec hex
  have hm : ∀ i : ℕ, i < m → ((i : ℚ) + 1) * T < D - 1 := fun i hi =>
    not_not.mp (Nat.find_min hex hi)
  have hfuel : m ≤ csbFuel D := by
    rcases Nat.eq_zero_or_pos m with h0 | hpos
    · omega
    · have h1m : 1 ≤ m := hpos
      have hlt : (m : ℚ) < D := by
        have hstep := hm (m - 1) (by omega)
        have hcast : (((m - 1 : ℕ) : ℚ) + 1) = (m : ℚ) := by
          push_cast [Nat.cast_sub h1m]
          ring
        rw [hcast] at hstep
        have h2 : (m : ℚ) * 1 ≤ (m : ℚ) * T := mul_le_mul_of_nonneg_left hT (by positivity)
        linarith
      have hDceil : (m : ℚ) < ((Rat.ceil D : ℤ) : ℚ) := lt_of_lt_of_le hlt (rat_le_ceil D)
      have hint : (m : ℤ) < Rat.ceil D := by exact_mod_cast hDceil
      have htn : m < (Rat.ceil D).toNat := by omega
      rw [csbFuel]
      omega
  have hu : compute_silence_boundaries D ⟨[], []⟩ T ext
      = csbGo ⟨[], []⟩ D T ext (csbFuel D) 0 T := by
    rw [compute_silence_boundaries, if_neg (not_le.mpr hD)]
  refine ⟨m, ?_, hm, hm2, ?_⟩
  · have h0 := csbGo_empty D T ext hT (csbFuel D) 0
    norm_num at h0
    rw [hu, h0, fixedSteps_eq_range D T m hm hm2 (csbFuel D) 0 (by omega) (by omega)]
    simp only [Nat.sub_zero, Nat.zero_add]
  · obtain ⟨_, _, hchain, _⟩ := csbGo_inv ⟨[], []⟩ D T ext (csbFuel D) 0 T hD
    rw [hu]
    exact hchain.imp (fun a b hab => by linarith)

/-- Witness for C7 at duration 30, target 10: the multiples of 10 below 29
are 10 and 20, so the boundary list is `[10, 20] ++ [30]`. -/
theorem compute_silence_boundaries_no_markers_witness :
    compute_silence_boundaries 30 ⟨[], []⟩ 10 240
      = ((List.range 2).map fun i : ℕ => ((i : ℚ) + 1) * 10) ++ [30] := by
  obtain ⟨m, h1, h2, h3, _⟩ :=
    compute_silence_boundaries_no_markers 30 10 240 (by norm_num) (by norm_num)
  have hm : m = 2 := by
    by_contra hne
    rcases Nat.lt_trichotomy m 2 with h | h | h
    · interval_cases m
      · refine h3 ?_
        norm_num
      · refine h3 ?_
        norm_num
    · exact hne h
    · have := h2 2 h
      norm_num at this
  rw [hm] at h1
  exact h1

/-- Counterexample to C7 as stated: with `duration = 10`,
`target_seconds = 1/2` (positive but below 1) and no markers, the code
produces `[1, 2, 3, 4, 5, 6, 7, 8, 10]`, not the multiples of `1/2` below
`10 - 1` followed by `10` (which would start at `1/2`). -/
theorem compute_silence_boundaries_no_markers_cex :
    compute_silence_boundaries 10 ⟨[], []⟩ (1 / 2) 240
      ≠ ((List.range 17).map fun i : ℕ => ((i : ℚ) + 1) * (1 / 2)) ++ [10] := by
  have hval : compute_silence_boundaries 10 ⟨[], []⟩ (1 / 2) 240
      = [1, 2, 3, 4, 5, 6, 7, 8, 10] := by
    rw [compute_silence_boundaries, if_neg (by norm_num), show csbFuel 10 = 11 from rfl]
    repeat
      rw [csbGo]
      norm_num [_select_boundary, candidateList, minCandidate, pyMax, pyMin, pyAbs]
  rw [hval]
  intro h
  have hh := congrArg (fun l => l.head?) h
  simp [List.range_succ] at hh

/-- C1 (amended).  On every non-raising path, `split_mp3_by_silence` returns
at least one segment for any source: the whole-file fallback covers the
degenerate boundary list and the all-segments-skipped case.  (The claim's
stronger statement — that the whole-file fallback also covers the case where
every per-boundary export attempt fails — is false: when both the ffmpeg
export and the in-process fallback fail for a planned segment the function
raises; see the counterexample.) -/
theorem split_mp3_by_silence_nonempty (duration : ℚ) (markers : SilenceMarkers)
    (target_seconds max_extension : ℚ) (primaryOk fallbackOk : ℕ → Bool)
    (segs : List PreparedSegment)
    (h : split_mp3_by_silence duration markers target_seconds max_extension
      primaryOk fallbackOk = Except.ok segs) :
    1 ≤ segs.length := by
  simp only [split_mp3_by_silence] at h
  split at h
  · injection h with h
    subst h
    norm_num
  · split at h
    · cases h
    · next segments heq =>
      split at h
      · injection h with h
        subst h
        norm_num
      · next hne =>
        injection h with h
        subst h
        exact List.length_pos.mpr hne

/-- Counterexample to C1 as stated: duration 30, no silence markers, target
10 — three planned segments — and both export paths failing for every
segment.  The code raises (models the `RuntimeError` at utils.py line 422)
instead of falling back to the whole file. -/
theorem split_mp3_by_silence_cex :
    split_mp3_by_silence 30 ⟨[], []⟩ 10 240 (fun _ => false) (fun _ => false)
      = Except.error () := by
  have hb : compute_silence_boundaries 30 ⟨[], []⟩ 10 240 = [10, 20, 30] := by
    rw [compute_silence_boundaries, if_neg (by norm_num), show csbFuel 30 = 31 from rfl]
    repeat
      rw [csbGo]
      norm_num [_select_boundary, candidateList, minCandidate, pyMax, pyMin, pyAbs]
  rw [split_mp3_by_silence, hb]
  norm_num [cutPairs, exportSegs]

/-- Witness for C1: same segmentation with both export paths succeeding; the
result is the three exported chunks, a list of length ≥ 1. -/
theorem split_mp3_by_silence_nonempty_witness :
    split_mp3_by_silence 30 ⟨[], []⟩ 10 240 (fun _ => true) (fun _ => true)
      = Except.ok [⟨SegPath.chunk 1, 0, 10⟩, ⟨SegPath.chunk 2, 10, 20⟩,
          ⟨SegPath.chunk 3, 20, 30⟩] ∧
    1 ≤ ([⟨SegPath.chunk 1, 0, 10⟩, ⟨SegPath.chunk 2, 10, 20⟩,
          (⟨SegPath.chunk 3, 20, 30⟩ : PreparedSegment)]).length := by
  have hb : compute_silence_boundaries 30 ⟨[], []⟩ 10 240 = [10, 20, 30] := by
    rw [compute_silence_boundaries, if_neg (by norm_num), show csbFuel 30 = 31 from rfl]
    repeat
      rw [csbGo]
      norm_num [_select_boundary, candidateList, minCandidate, pyMax, pyMin, pyAbs]
  have hok : split_mp3_by_silence 30 ⟨[], []⟩ 10 240 (fun _ => true) (fun _ => true)
      = Except.ok [⟨SegPath.chunk 1, 0, 10⟩, ⟨SegPath.chunk 2, 10, 20⟩,
          ⟨SegPath.chunk 3, 20, 30⟩] := by
    rw [split_mp3_by_silence, hb]
    norm_num [cutPairs, exportSegs]
    simp
  exact ⟨hok, split_mp3_by_silence_nonempty 30 ⟨[], []⟩ 10 240 _ _ _ hok⟩

lemma pyInt_le {q : ℚ} (h : 0 ≤ q) : (pyInt q : ℚ) ≤ q := by
  rw [pyInt_eq_floor h]
  exact Int.floor_le q

lemma pyInt_lt_one {q : ℚ} (h : q < 1) : pyInt q < 1 := by
  rcases lt_or_le q 0 with hq | hq
  · rw [pyInt, if_pos hq]
    have hnum : 0 ≤ (-q).num := Rat.num_nonneg.mpr (by linarith)
    have hdiv : 0 ≤ (-q).num / ((-q).den : ℤ) :=
      Int.ediv_nonneg hnum (by positivity)
    omega
  · rw [pyInt_eq_floor hq]
    exact Int.floor_lt.mpr (by exact_mod_cast h)

lemma splitGo_succ (dur_ms : ℕ) (max_ms : ℤ) (fuel : ℕ) (start : ℤ) (idx : ℕ) :
    splitGo dur_ms max_ms (fuel + 1) start idx =
      if start < (dur_ms : ℤ) then
        match splitGo dur_ms max_ms fuel (iMin (start + max_ms) (dur_ms : ℤ)) (idx + 1) with
        | none => none
        | some rest => some (⟨SegPath.part idx, (start : ℚ) / 1000,
            ((iMin (start + max_ms) (dur_ms : ℤ) : ℤ) : ℚ) / 1000⟩ :: rest)
      else some [] := rfl

lemma splitGo_spec (dur_ms : ℕ) (max_ms : ℤ) (hmm : 1 ≤ max_ms) :
    ∀ (fuel : ℕ) (start : ℤ) (idx : ℕ), 0 ≤ start → start ≤ (dur_ms : ℤ) →
      (dur_ms : ℤ) < start + (fuel : ℤ) →
      ∃ segs, splitGo dur_ms max_ms fuel start idx = some segs ∧
        (start < (dur_ms : ℤ) →
          segs.head?.map PreparedSegment.start = some ((start : ℚ) / 1000)) ∧
        (¬ start < (dur_ms : ℤ) → segs = []) ∧
        (start < (dur_ms : ℤ) →
          segs.getLast?.map PreparedSegment.end_ = some ((dur_ms : ℚ) / 1000)) ∧
        List.Chain' (fun a b => a.end_ = b.start) segs ∧
        (∀ s ∈ segs, s.start < s.end_ ∧ (s.end_ - s.start) * 1000 ≤ (max_ms : ℚ) ∧
          ∃ i, s.path = SegPath.part i) := by
  intro fuel
  induction fuel with
  | zero =>
    intro start idx h0 hle hfuel
    exfalso
    omega
  | succ fuel ih =>
    intro start idx h0 hle hfuel
    by_cases hs : start < (dur_ms : ℤ)
    · have he1 : start + 1 ≤ iMin (start + max_ms) (dur_ms : ℤ) := by
        rw [iMin_eq]
        exact le_min (by omega) (by omega)
      have he2 : iMin (start + max_ms) (dur_ms : ℤ) ≤ (dur_ms : ℤ) := by
        rw [iMin_eq]
        exact min_le_right _ _
      have he3 : iMin (start + max_ms) (dur_ms : ℤ) ≤ start + max_ms := by
        rw [iMin_eq]
        exact min_le_left _ _
      obtain ⟨segs', hgo', hhead', hnil', hlast', hchain', hall'⟩ :=
        ih (iMin (start + max_ms) (dur_ms : ℤ)) (idx + 1) (by omega) he2 (by omega)
      refine ⟨⟨SegPath.part idx, (start : ℚ) / 1000,
          ((iMin (start + max_ms) (dur_ms : ℤ) : ℤ) : ℚ) / 1000⟩ :: segs', ?_, ?_, ?_, ?_, ?_, ?_⟩
      · rw [splitGo_succ, if_pos hs, hgo']
      · intro _
        rfl
      · intro hcon
        exact absurd hs hcon
      · intro _
        by_cases he : iMin (start + max_ms) (dur_ms : ℤ) < (dur_ms : ℤ)
        · have hne : segs' ≠ [] := by
            intro hnil
            have := hhead' he
            rw [hnil] at this
            cases this
          obtain ⟨x, xs, rfl⟩ := List.exists_cons_of_ne_nil hne
          rw [List.getLast?_cons_cons]
          exact hlast' he
        · have hnil := hnil' he
          subst hnil
          have heq : iMin (start + max_ms) (dur_ms : ℤ) = (dur_ms : ℤ) := by omega
          simp [List.getLast?, heq]
      · rw [List.chain'_cons']
        refine ⟨?_, hchain'⟩
        intro y hy
        by_cases he : iMin (start + max_ms) (dur_ms : ℤ) < (dur_ms : ℤ)
        · have hh := hhead' he
          rcases segs' with _ | ⟨z, zs⟩
          · cases hy
          · simp only [List.head?_cons, Option.mem_def, Option.some_inj] at hy
            subst hy
            simp only [List.head?_cons, Option.map_some] at hh
            injection hh with hh
            exact hh.symm
        · have hnil := hnil' he
          subst hnil
          cases hy
      · intro s hsmem
        rcases List.mem_cons.mp hsmem with rfl | hsmem
        · have hlt : (start : ℚ) < ((iMin (start + max_ms) (dur_ms : ℤ) : ℤ) : ℚ) := by
            exact_mod_cast (by omega : start < iMin (start + max_ms) (dur_ms : ℤ))
          have hle' : ((iMin (start + max_ms) (dur_ms : ℤ) : ℤ) : ℚ) - (start : ℚ)
              ≤ (max_ms : ℚ) := by
            exact_mod_cast (by omega : iMin (start + max_ms) (dur_ms : ℤ) - start ≤ max_ms)
          refine ⟨by dsimp only; linarith, ?_, idx, rfl⟩
          dsimp only
          have hr : (((iMin (start + max_ms) (dur_ms : ℤ) : ℤ) : ℚ) / 1000
              - (start : ℚ) / 1000) * 1000
              = ((iMin (start + max_ms) (dur_ms : ℤ) : ℤ) : ℚ) - (start : ℚ) := by ring
          rw [hr]
          exact hle'
        · exact hall' s hsmem
    · refine ⟨[], ?_, fun hcon => absurd hcon hs, fun _ => rfl, fun hcon => absurd hcon hs,
        List.chain'_nil, fun s hsmem => absurd hsmem (List.not_mem_nil s)⟩
      rw [splitGo_succ, if_neg hs]

/-- C6 (amended: the over-cap branch additionally requires the derived
cutting interval `max_ms` to be at least 1 ms).  Size-based splitting: a file
whose size is at most the byte cap returns exactly one whole-file segment
backed by the original file; an over-cap file is cut at fixed `max_ms`
intervals into contiguous segments starting at 0, ending at the full
duration, with no gaps or overlaps, and — under the exact
bytes-per-millisecond linearity assumption — each segment's estimated byte
size is at most the cap.  (When `max_ms = 0`, which the code can derive for
an over-cap file whose bytes-per-ms rate exceeds the cap, the cutting loop
makes no progress and never terminates; see the counterexample.) -/
theorem split_mp3_under_limit_spec (size dur_ms : ℕ) (target_mb : ℚ) :
    ((size : ℚ) ≤ target_mb * 1024 ^ 2 →
      split_mp3_under_limit size dur_ms target_mb
        = some [⟨SegPath.orig, 0, (dur_ms : ℚ) / 1000⟩]) ∧
    (target_mb * 1024 ^ 2 < (size : ℚ) → 1 ≤ maxMsOf size dur_ms target_mb →
      ∃ segs, split_mp3_under_limit size dur_ms target_mb = some segs ∧
        segs.head?.map PreparedSegment.start = some 0 ∧
        segs.getLast?.map PreparedSegment.end_ = some ((dur_ms : ℚ) / 1000) ∧
        List.Chain' (fun a b => a.end_ = b.start) segs ∧
        (∀ s ∈ segs, s.start < s.end_ ∧
          (s.end_ - s.start) * 1000 * bytes_per_ms size dur_ms
            ≤ target_mb * 1024 ^ 2 ∧
          ∃ i, s.path = SegPath.part i)) := by
  constructor
  · intro hunder
    rw [split_mp3_under_limit, if_pos hunder]
  · intro hover hms
    have hratpos : 0 < max (bytes_per_ms size dur_ms) (1 / 1000000) :=
      lt_max_of_lt_right (by norm_num)
    have hrat0 : 0 ≤ target_mb * 1024 ^ 2
        / max (bytes_per_ms size dur_ms) (1 / 1000000) := by
      by_contra hneg
      push_neg at hneg
      have := pyInt_lt_one (lt_trans hneg one_pos)
      rw [maxMsOf] at hms
      omega
    have hcap0 : 0 ≤ target_mb * 1024 ^ 2 := by
      have := div_nonneg_iff.mp hrat0
      rcases this with ⟨h1, _⟩ | ⟨_, h2⟩
      · exact h1
      · linarith
    have hdur : 0 < dur_ms := by
      by_contra h0
      have h0 : dur_ms = 0 := by omega
      subst h0
      have hb : bytes_per_ms size 0 = (size : ℚ) := by
        rw [bytes_per_ms]
        norm_num
      have hlt1 : target_mb * 1024 ^ 2 / max (bytes_per_ms size 0) (1 / 1000000) < 1 := by
        rw [div_lt_one hratpos]
        calc target_mb * 1024 ^ 2 < (size : ℚ) := hover
          _ = bytes_per_ms size 0 := hb.symm
          _ ≤ max (bytes_per_ms size 0) (1 / 1000000) := le_max_left _ _
      have := pyInt_lt_one hlt1
      rw [maxMsOf] at hms
      omega
    obtain ⟨segs, hgo, hhead, _, hlast, hchain, hall⟩ :=
      splitGo_spec dur_ms (maxMsOf size dur_ms target_mb) hms (dur_ms + 1) 0 1
        le_rfl (by positivity) (by omega)
    have hdurz : (0 : ℤ) < (dur_ms : ℤ) := by exact_mod_cast hdur
    refine ⟨segs, ?_, ?_, hlast hdurz, hchain, ?_⟩
    · rw [split_mp3_under_limit, if_neg (not_le.mpr hover)]
      exact hgo
    · have := hhead hdurz
      simpa using this
    · intro s hsmem
      obtain ⟨h1, h2, h3⟩ := hall s hsmem
      have hb0 : 0 ≤ bytes_per_ms size dur_ms := by
        rw [bytes_per_ms]
        positivity
      refine ⟨h1, ?_, h3⟩
      have hkey : (maxMsOf size dur_ms target_mb : ℚ) * bytes_per_ms size dur_ms
          ≤ target_mb * 1024 ^ 2 := by
        have hle : (maxMsOf size dur_ms target_mb : ℚ)
            ≤ target_mb * 1024 ^ 2 / max (bytes_per_ms size dur_ms) (1 / 1000000) := by
          rw [maxMsOf]
          exact pyInt_le hrat0
        calc (maxMsOf size dur_ms target_mb : ℚ) * bytes_per_ms size dur_ms
            ≤ (target_mb * 1024 ^ 2 / max (bytes_per_ms size dur_ms) (1 / 1000000))
              * bytes_per_ms size dur_ms := mul_le_mul_of_nonneg_right hle hb0
          _ = (target_mb * 1024 ^ 2)
              * (bytes_per_ms size dur_ms / max (bytes_per_ms size dur_ms) (1 / 1000000)) := by
              ring
          _ ≤ (target_mb * 1024 ^ 2) * 1 := by
              refine mul_le_mul_of_nonneg_left ?_ hcap0
              rw [div_le_one hratpos]
              exact le_max_left _ _
          _ = target_mb * 1024 ^ 2 := by ring
      calc (s.end_ - s.start) * 1000 * bytes_per_ms size dur_ms
          ≤ (maxMsOf size dur_ms target_mb : ℚ) * bytes_per_ms size dur_ms :=
            mul_le_mul_of_nonneg_right h2 hb0
        _ ≤ target_mb * 1024 ^ 2 := hkey

/-- Counterexample to C6 as stated: a 64 MiB file of duration 1 ms with a
23 MB cap derives `max_ms = int(23·2^20 / 2^26) = 0`; the cutting loop then
never advances, so the Python call never returns (no fuel suffices in the
model — the result is `none`, not a segment list covering the duration). -/
theorem split_mp3_under_limit_cex : split_mp3_under_limit (2 ^ 26) 1 23 = none := by
  have hms : maxMsOf (2 ^ 26) 1 23 = 0 := by
    have hb : bytes_per_ms (2 ^ 26) 1 = (2 ^ 26 : ℚ) := by
      rw [bytes_per_ms, show max 1 1 = 1 from rfl]
      norm_num
    rw [maxMsOf, hb, max_eq_left (by norm_num),
      pyInt_eq_floor (by norm_num)]
    norm_num
  rw [split_mp3_under_limit, if_neg (by norm_num), hms]
  rw [splitGo_succ]
  norm_num [iMin]
  rw [splitGo_succ]
  norm_num [iMin, splitGo]

/-- Witness for C6: a 4 MiB file under the 23 MB cap returns one whole-file
segment, and the spec's end-to-end example — a 100 MiB file, 23 MB cap,
100 s duration, exactly linear bitrate — produces a segment list
(`max_ms = 23000`). -/
theorem split_mp3_under_limit_spec_witness :
    split_mp3_under_limit (4 * 2 ^ 20) 4000 23 = some [⟨SegPath.orig, 0, 4⟩] ∧
    (split_mp3_under_limit (100 * 2 ^ 20) 100000 23).isSome = true := by
  constructor
  · have h := (split_mp3_under_limit_spec (4 * 2 ^ 20) 4000 23).1 (by norm_num)
    rw [show ((4000 : ℕ) : ℚ) / 1000 = 4 by norm_num] at h
    exact h
  · have hms : maxMsOf (100 * 2 ^ 20) 100000 23 = 23000 := by
      have hb : bytes_per_ms (100 * 2 ^ 20) 100000 = 131072 / 125 := by
        rw [bytes_per_ms, show max 100000 1 = 100000 from rfl]
        norm_num
      rw [maxMsOf, hb, max_eq_left (by norm_num),
        pyInt_eq_floor (by norm_num)]
      norm_num
    obtain ⟨segs, hs, _⟩ := (split_mp3_under_limit_spec (100 * 2 ^ 20) 100000 23).2
      (by norm_num) (by rw [hms]; norm_num)
    rw [hs]
    rfl

lemma agg_foldl (ps : List SectionPayload) :
    ∀ (cats : List Category) (t tw : ℚ),
      ps.foldl aggStep (cats, t, tw)
        = (cats ++ ps.map aggCat,
           t + ((ps.filter fun s => s.sectionScore.isSome).map
             fun s => s.sectionScore.getD 0 * effWeight s.section_.weight).sum,
           tw + ((ps.filter fun s => s.sectionScore.isSome).map
             fun s => effWeight s.section_.weight).sum) := by
  induction ps with
  | nil => intro cats t tw; simp
  | cons sec ps ih =>
    intro cats t tw
    rw [List.foldl_cons]
    cases hs : sec.sectionScore with
    | none =>
      have hstep : aggStep (cats, t, tw) sec = (cats ++ [aggCat sec], t, tw) := by
        rw [aggStep, hs]
      rw [hstep, ih]
      simp [List.filter_cons, hs]
    | some sc =>
      have hstep : aggStep (cats, t, tw) sec
          = (cats ++ [aggCat sec], t + sc * effWeight sec.section_.weight,
             tw + effWeight sec.section_.weight) := by
        rw [aggStep, hs]
      rw [hstep, ih]
      refine Prod.ext ?_ (Prod.ext ?_ ?_) <;>
        simp [List.filter_cons, hs] <;> ring

/-- C4.  `_aggregate_sections` computes the overall score as the
weight-normalised mean of exactly the sections whose `sectionScore` is
non-null (a section's weight defaults to 1 when missing or 0, per the
source's `weight or 1.0`): if every section's score is null the overall score
is null; whenever the retained weights sum to a positive total the overall
score is the weighted mean over the non-null sections; and the concrete pair
`{score 80, weight 1}`, `{score null, weight 1}` aggregates to 80, not 40. -/
theorem aggregate_sections_weighted_mean (ps : List SectionPayload) :
    ((∀ s ∈ ps, s.sectionScore = none) → (_aggregate_sections ps).overall_score = none) ∧
    (0 < ((ps.filter fun s => s.sectionScore.isSome).map
        fun s => effWeight s.section_.weight).sum →
      (_aggregate_sections ps).overall_score
        = some (((ps.filter fun s => s.sectionScore.isSome).map
            fun s => s.sectionScore.getD 0 * effWeight s.section_.weight).sum
          / ((ps.filter fun s => s.sectionScore.isSome).map
            fun s => effWeight s.section_.weight).sum)) ∧
    (_aggregate_sections [⟨⟨"A", some 1, []⟩, [], some 80, none, [], []⟩,
        ⟨⟨"B", some 1, []⟩, [], none, none, [], []⟩]).overall_score = some 80 := by
  refine ⟨?_, ?_, ?_⟩
  · intro hall
    have hfil : ps.filter (fun s => s.sectionScore.isSome) = [] := by
      rw [List.filter_eq_nil_iff]
      intro a ha
      rw [hall a ha]
      simp
    simp only [_aggregate_sections, agg_foldl ps [] 0 0, hfil]
    norm_num
  · intro hpos
    simp only [_aggregate_sections, agg_foldl ps [] 0 0, List.nil_append, zero_add]
    rw [if_pos hpos]
  · norm_num [_aggregate_sections, aggStep, aggCat, effWeight]

/-- Witness for C4: a single all-null payload aggregates to a null overall
score, and the claim's concrete pair aggregates to 80. -/
theorem aggregate_sections_weighted_mean_witness :
    (_aggregate_sections [⟨⟨"B", some 1, []⟩, [], none, none, [], []⟩]).overall_score
      = none ∧
    (_aggregate_sections [⟨⟨"A", some 1, []⟩, [], some 80, none, [], []⟩,
        ⟨⟨"B", some 1, []⟩, [], none, none, [], []⟩]).overall_score = some 80 := by
  constructor
  · refine (aggregate_sections_weighted_mean _).1 ?_
    intro s hs
    fin_cases hs
    rfl
  · exact (aggregate_sections_weighted_mean []).2.2

lemma digestGo_cons (mc : ℕ) (seg : TranscriptSeg) (rest : List TranscriptSeg) (used : ℕ) :
    digestGo mc (seg :: rest) used =
      if stripChars seg.text = [] then digestGo mc rest used
      else
        if mc < used + (digestLine seg (stripChars seg.text)).length then
          if 0 < mc - used then [(digestLine seg (stripChars seg.text)).take (mc - used)]
          else []
        else digestLine seg (stripChars seg.text) :: digestGo mc rest
          (used + (digestLine seg (stripChars seg.text)).length + 1) := rfl

lemma joinNL_length_le : ∀ (ls : List (List Char)) (B : ℕ),
    (ls.map List.length).sum + ls.length ≤ B + 1 → (joinNL ls).length ≤ B := by
  intro ls
  induction ls with
  | nil =>
    intro B _
    simp [joinNL]
  | cons l ls ih =>
    intro B h
    cases ls with
    | nil =>
      simp only [joinNL, List.map_cons, List.map_nil, List.sum_cons, List.sum_nil,
        List.length_cons, List.length_nil] at h ⊢
      omega
    | cons l2 ls2 =>
      have hj : joinNL (l :: l2 :: ls2) = l ++ '\n' :: joinNL (l2 :: ls2) := rfl
      rw [hj]
      simp only [List.length_append, List.length_cons]
      simp only [List.map_cons, List.sum_cons, List.length_cons] at h
      have hB : l.length + 1 ≤ B := by
        have hnonneg : 0 ≤ (List.map List.length (l2 :: ls2)).sum := Nat.zero_le _
        simp only [List.map_cons, List.sum_cons] at hnonneg ⊢
        omega
      have hih := ih (B - l.length - 1) (by
        simp only [List.map_cons, List.sum_cons, List.length_cons]
        omega)
      omega

lemma digestGo_bound (mc : ℕ) : ∀ (segs : List TranscriptSeg) (used : ℕ),
    used ≤ mc + 1 →
    ((digestGo mc segs used).map List.length).sum + (digestGo mc segs used).length + used
      ≤ mc + 1 := by
  intro segs
  induction segs with
  | nil =>
    intro used hused
    simp only [digestGo, List.map_nil, List.sum_nil, List.length_nil]
    omega
  | cons seg rest ih =>
    intro used hused
    rw [digestGo_cons]
    by_cases h1 : stripChars seg.text = []
    · rw [if_pos h1]
      exact ih used hused
    · rw [if_neg h1]
      by_cases h2 : mc < used + (digestLine seg (stripChars seg.text)).length
      · rw [if_pos h2]
        by_cases h3 : 0 < mc - used
        · rw [if_pos h3]
          simp only [List.map_cons, List.map_nil, List.sum_cons, List.sum_nil,
            List.length_cons, List.length_nil, List.length_take]
          omega
        · rw [if_neg h3]
          simp only [List.map_nil, List.sum_nil, List.length_nil]
          omega
      · rw [if_neg h2]
        have hused' : used + (digestLine seg (stripChars seg.text)).length + 1 ≤ mc + 1 := by
          omega
        have hrec := ih (used + (digestLine seg (stripChars seg.text)).length + 1) hused'
        simp only [List.map_cons, List.sum_cons, List.length_cons]
        omega

/-- C10.  For every transcript document and every `max_chars`, the digest
string built by `_build_transcript_digest` has length at most `max_chars`
(the call-site default is 12000): the line that would exceed the budget is
truncated to the remaining room, and the no-segments fallback slices the raw
text to `max_chars`. -/
theorem build_transcript_digest_length (transcript : Transcript) (max_chars : ℕ) :
    (_build_transcript_digest transcript max_chars).length ≤ max_chars := by
  rw [_build_transcript_digest]
  split
  · have hj : joinNL [transcript.text.take max_chars] = transcript.text.take max_chars := rfl
    rw [hj, List.length_take]
    omega
  · apply joinNL_length_le
    have := digestGo_bound max_chars transcript.segments 0 (by omega)
    omega

/-- C9 (code bug).  On the path `reencode = True`, ffmpeg unavailable, source
size within the 25 MB upload cap, `prepare_audio` returns `[src_path]` — a
bare path with no timing metadata (audio_processor.py line 48) — although its
own annotation and all callers (`transcribe_segments` reads `.path`,
`.start`, `.end`) require a list of `PreparedSegment`.  The returned
element's `isSeg` is false. -/
theorem prepare_audio_no_ffmpeg_returns_bare_path :
    prepare_audio ⟨false, 10 * 1024 ^ 2, 1000, true, 0, 0, ⟨[], []⟩,
        (fun _ => true), (fun _ => true)⟩ true 23 true 600 240
      = some (Except.ok [PreparedOrPath.raw SegPath.orig]) ∧
    (PreparedOrPath.raw SegPath.orig).isSeg = false := by
  constructor
  · rw [prepare_audio]
    norm_num [MAX_UPLOAD_MB]
  · rfl

lemma handleOne_conc_rate (oracle : ℕ → ℕ → RunOutcome) (sections : List SectionMeta)
    (ma : ℕ) (t : SecTask) (s : RunState)
    (h : oracle t.index t.attempts = RunOutcome.err ErrKind.rate_limit) :
    (handleOne oracle sections ma t s).concurrency
      = if 1 < s.concurrency then s.concurrency - 1 else s.concurrency := by
  simp only [handleOne, h]
  by_cases ha : t.attempts + 1 < ma <;> simp [ha]

lemma handleOne_conc_le (oracle : ℕ → ℕ → RunOutcome) (sections : List SectionMeta)
    (ma : ℕ) (t : SecTask) (s : RunState) :
    (handleOne oracle sections ma t s).concurrency ≤ s.concurrency := by
  cases horacle : oracle t.index t.attempts with
  | ok p => simp [handleOne, horacle]
  | err k =>
    simp only [handleOne, horacle]
    split_ifs <;> simp

lemma handleOne_conc_pos (oracle : ℕ → ℕ → RunOutcome) (sections : List SectionMeta)
    (ma : ℕ) (t : SecTask) (s : RunState) (h1 : 1 ≤ s.concurrency) :
    1 ≤ (handleOne oracle sections ma t s).concurrency := by
  cases horacle : oracle t.index t.attempts with
  | ok p => simpa [handleOne, horacle] using h1
  | err k =>
    simp only [handleOne, horacle]
    split_ifs <;> simp <;> omega

lemma stepRun_conc (oracle : ℕ → ℕ → RunOutcome) (pick : ℕ → ℕ)
    (sections : List SectionMeta) (ma k : ℕ) (s s' : RunState)
    (h : stepRun oracle pick sections ma k s = some s') :
    s'.concurrency ≤ s.concurrency ∧ (1 ≤ s.concurrency → 1 ≤ s'.concurrency) := by
  rw [stepRun] at h
  split at h
  · cases h
  · next t rest heq =>
    injection h with h
    subst h
    exact ⟨handleOne_conc_le _ _ _ _ _, fun h1 => handleOne_conc_pos _ _ _ _ _ h1⟩

lemma runGo_conc (oracle : ℕ → ℕ → RunOutcome) (pick : ℕ → ℕ)
    (sections : List SectionMeta) (ma : ℕ) :
    ∀ (fuel k : ℕ) (s : RunState),
      (runGo oracle pick sections ma fuel k s).concurrency ≤ s.concurrency ∧
      (1 ≤ s.concurrency → 1 ≤ (runGo oracle pick sections ma fuel k s).concurrency) := by
  intro fuel
  induction fuel with
  | zero => intro k s; exact ⟨le_refl _, fun h => h⟩
  | succ fuel ih =>
    intro k s
    rw [runGo]
    cases hstep : stepRun oracle pick sections ma k s with
    | none => exact ⟨le_refl _, fun h => h⟩
    | some s' =>
      obtain ⟨h1, h2⟩ := stepRun_conc oracle pick sections ma k s s' hstep
      obtain ⟨h3, h4⟩ := ih (k + 1) s'
      exact ⟨le_trans h3 h1, fun h => h4 (h2 h)⟩

lemma pick_initial_pos (selfConc n : ℕ) : 1 ≤ pick_initial_concurrency selfConc n := by
  rw [pick_initial_concurrency]
  split <;> omega

/-- C3.  In the sectional scoring loop: handling a completion whose failure
classifies as `rate_limit` decreases the concurrency permit count by exactly
1 unless it is already 1; handling any completion never increases the permit
count and never takes it below 1; consequently over a whole run the final
permit count is at most the initial one and at least 1. -/
theorem rate_limit_concurrency_adaptive :
    (∀ (oracle : ℕ → ℕ → RunOutcome) (sections : List SectionMeta) (ma : ℕ)
        (t : SecTask) (s : RunState),
      oracle t.index t.attempts = RunOutcome.err ErrKind.rate_limit →
        (handleOne oracle sections ma t s).concurrency
          = if 1 < s.concurrency then s.concurrency - 1 else s.concurrency) ∧
    (∀ (oracle : ℕ → ℕ → RunOutcome) (sections : List SectionMeta) (ma : ℕ)
        (t : SecTask) (s : RunState),
      (handleOne oracle sections ma t s).concurrency ≤ s.concurrency) ∧
    (∀ (oracle : ℕ → ℕ → RunOutcome) (sections : List SectionMeta) (ma : ℕ)
        (t : SecTask) (s : RunState), 1 ≤ s.concurrency →
      1 ≤ (handleOne oracle sections ma t s).concurrency) ∧
    (∀ (oracle : ℕ → ℕ → RunOutcome) (pick : ℕ → ℕ) (sections : List SectionMeta)
        (mr : ℕ) (rc : ℤ),
      (evaluate_sectional oracle pick sections mr rc).concurrency
        ≤ pick_initial_concurrency (scorerConcurrency rc) sections.length ∧
      1 ≤ (evaluate_sectional oracle pick sections mr rc).concurrency) := by
  refine ⟨handleOne_conc_rate, handleOne_conc_le, handleOne_conc_pos, ?_⟩
  intro oracle pick sections mr rc
  obtain ⟨h1, h2⟩ := runGo_conc oracle pick sections (maxAttempts mr)
    (sections.length * maxAttempts mr + 1) 0
    (initState sections (pick_initial_concurrency (scorerConcurrency rc) sections.length))
  exact ⟨h1, h2 (pick_initial_pos _ _)⟩

/-- Witness for C3: a rate-limit failure at permit count 3 yields permit
count 2. -/
theorem rate_limit_concurrency_adaptive_witness :
    (handleOne (fun _ _ => RunOutcome.err ErrKind.rate_limit) [] 2 ⟨0, 0⟩
        ⟨[], [], 3, [], []⟩).concurrency = 2 := by
  have h := rate_limit_concurrency_adaptive.1 (fun _ _ => RunOutcome.err ErrKind.rate_limit)
    [] 2 ⟨0, 0⟩ ⟨[], [], 3, [], []⟩ rfl
  rw [h]
  norm_num

lemma admitGo_perm (c : ℕ) : ∀ (ps infl : List SecTask),
    ((admitGo ps infl c).1 ++ (admitGo ps infl c).2).Perm (ps ++ infl) := by
  intro ps
  induction ps with
  | nil =>
    intro infl
    exact List.Perm.refl _
  | cons t ps ih =>
    intro infl
    rw [admitGo]
    by_cases h : infl.length < c
    · rw [if_pos h]
      refine (ih (infl ++ [t])).trans ?_
      refine (List.Perm.append_left ps (List.perm_append_singleton t infl)).trans ?_
      exact List.perm_middle
    · rw [if_neg h]

lemma admitGo_snd_nil {c : ℕ} (hc : 1 ≤ c) : ∀ (ps infl : List SecTask),
    (admitGo ps infl c).2 = [] → ps = [] ∧ infl = [] := by
  intro ps
  induction ps with
  | nil =>
    intro infl h
    exact ⟨rfl, h⟩
  | cons t ps ih =>
    intro infl h
    rw [admitGo] at h
    by_cases hlen : infl.length < c
    · rw [if_pos hlen] at h
      obtain ⟨_, habs⟩ := ih (infl ++ [t]) h
      exact absurd habs (by simp)
    · rw [if_neg hlen] at h
      have h' : infl = [] := h
      exfalso
      apply hlen
      rw [h']
      simpa using hc
  
lemma rotate_cons_perm {l : List SecTask} {n : ℕ} {t : SecTask} {rest : List SecTask}
    (h : l.rotate n = t :: rest) : l.Perm (t :: rest) := by
  rw [← h]
  exact (List.rotate_perm l n).symm

lemma stepRun_some {oracle : ℕ → ℕ → RunOutcome} {pick : ℕ → ℕ}
    {sections : List SectionMeta} {ma k : ℕ} {s s' : RunState}
    (h : stepRun oracle pick sections ma k s = some s') :
    ∃ t rest,
      ((admitGo s.pending s.inFlight s.concurrency).2).rotate (pick k) = t :: rest ∧
      s' = handleOne oracle sections ma t
        { s with pending := (admitGo s.pending s.inFlight s.concurrency).1,
                 inFlight := rest } := by
  simp only [stepRun] at h
  split at h
  · cases h
  · next t rest heq => exact ⟨t, rest, heq, (Option.some_inj.mp h).symm⟩

lemma stepRun_none {oracle : ℕ → ℕ → RunOutcome} {pick : ℕ → ℕ}
    {sections : List SectionMeta} {ma k : ℕ} {s : RunState}
    (hc : 1 ≤ s.concurrency)
    (h : stepRun oracle pick sections ma k s = none) :
    s.pending = [] ∧ s.inFlight = [] := by
  simp only [stepRun] at h
  split at h
  · next heq =>
    have hnil : (admitGo s.pending s.inFlight s.concurrency).2 = [] := by
      have hlen := congrArg List.length heq
      rw [List.length_rotate] at hlen
      exact List.length_eq_zero.mp hlen
    exact admitGo_snd_nil hc s.pending s.inFlight hnil
  · cases h

lemma perm_shuffle (A B R : List ℕ) (x : ℕ) :
    ((A ++ B) ++ (R ++ [x])).Perm ((A ++ x :: B) ++ R) := by
  refine (List.Perm.append_left (A ++ B) (List.perm_append_singleton x R)).trans ?_
  refine List.perm_middle.trans ?_
  simp only [List.append_assoc]
  exact List.perm_middle.symm

lemma perm_shuffle2 (A B R : List ℕ) (x : ℕ) :
    ((x :: A ++ B) ++ R).Perm ((A ++ x :: B) ++ R) := by
  refine List.Perm.append_right R ?_
  exact List.perm_middle.symm

lemma stepRun_preserves {oracle : ℕ → ℕ → RunOutcome} {pick : ℕ → ℕ}
    {sections : List SectionMeta} {ma n k : ℕ} {s s' : RunState}
    (hstep : stepRun oracle pick sections ma k s = some s')
    (hatt : ∀ t ∈ liveTasks s, t.attempts < ma)
    (hperm : ((liveTasks s).map SecTask.index ++ s.results.map Prod.fst).Perm
      (List.range n)) :
    (∀ t ∈ liveTasks s', t.attempts < ma) ∧
    ((liveTasks s').map SecTask.index ++ s'.results.map Prod.fst).Perm (List.range n) ∧
    runMeasure ma s' < runMeasure ma s := by
  obtain ⟨t, rest, hrot, rfl⟩ := stepRun_some hstep
  set P := (admitGo s.pending s.inFlight s.concurrency).1 with hP
  have hadm := admitGo_perm s.concurrency s.pending s.inFlight
  have hrotp := rotate_cons_perm hrot
  have hlive : (liveTasks s).Perm (P ++ (t :: rest)) :=
    (hadm.symm).trans (List.Perm.append_left _ hrotp)
  have hmem : ∀ x ∈ P ++ (t :: rest), x ∈ liveTasks s := fun x hx => hlive.mem_iff.mpr hx
  have hmapPerm : ((liveTasks s).map SecTask.index).Perm
      (P.map SecTask.index ++ t.index :: rest.map SecTask.index) := by
    have h := hlive.map SecTask.index
    simpa using h
  have hsum : runMeasure ma s
      = (P.map fun x => ma - x.attempts).sum
        + ((ma - t.attempts) + (rest.map fun x => ma - x.attempts).sum) := by
    have h := (hlive.map fun x => ma - x.attempts).sum_eq
    simpa [runMeasure] using h
  have htlt : t.attempts < ma := hatt t (hmem t (by simp))
  cases horacle : oracle t.index t.attempts with
  | ok p =>
    refine ⟨?_, ?_, ?_⟩
    · intro x hx
      have hx' : x ∈ P ++ rest := by
        simpa [handleOne, horacle, liveTasks] using hx
      rcases List.mem_append.mp hx' with h | h
      · exact hatt x (hmem x (List.mem_append_left _ h))
      · exact hatt x (hmem x (List.mem_append_right _ (List.mem_cons_of_mem _ h)))
    · have hgoal : (liveTasks (handleOne oracle sections ma t
          { s with pending := P, inFlight := rest })).map SecTask.index
          ++ (handleOne oracle sections ma t
            { s with pending := P, inFlight := rest }).results.map Prod.fst
          = (P.map SecTask.index ++ rest.map SecTask.index)
            ++ (s.results.map Prod.fst ++ [t.index]) := by
        simp [handleOne, horacle, liveTasks]
      rw [hgoal]
      exact ((perm_shuffle _ _ _ _).trans
        ((hmapPerm.symm).append_right _)).trans hperm
    · have hgoal : runMeasure ma (handleOne oracle sections ma t
          { s with pending := P, inFlight := rest })
          = (P.map fun x => ma - x.attempts).sum
            + (rest.map fun x => ma - x.attempts).sum := by
        simp [handleOne, horacle, liveTasks, runMeasure]
      rw [hgoal, hsum]
      omega
  | err ek =>
    by_cases ha : t.attempts + 1 < ma
    · refine ⟨?_, ?_, ?_⟩
      · intro x hx
        have hx' : x = (⟨t.index, t.attempts + 1⟩ : SecTask) ∨ x ∈ P ∨ x ∈ rest := by
          simpa [handleOne, horacle, ha, liveTasks] using hx
        rcases hx' with h | h | h
        · subst h
          exact ha
        · exact hatt x (hmem x (List.mem_append_left _ h))
        · exact hatt x (hmem x (List.mem_append_right _ (List.mem_cons_of_mem _ h)))
      · have hgoal : (liveTasks (handleOne oracle sections ma t
            { s with pending := P, inFlight := rest })).map SecTask.index
            ++ (handleOne oracle sections ma t
              { s with pending := P, inFlight := rest }).results.map Prod.fst
            = (t.index :: P.map SecTask.index ++ rest.map SecTask.index)
              ++ s.results.map Prod.fst := by
          simp [handleOne, horacle, ha, liveTasks]
        rw [hgoal]
        exact ((perm_shuffle2 _ _ _ _).trans
          ((hmapPerm.symm).append_right _)).trans hperm
      · have hgoal : runMeasure ma (handleOne oracle sections ma t
            { s with pending := P, inFlight := rest })
            = (ma - (t.attempts + 1)) + ((P.map fun x => ma - x.attempts).sum
              + (rest.map fun x => ma - x.attempts).sum) := by
          simp [handleOne, horacle, ha, liveTasks, runMeasure]
        rw [hgoal, hsum]
        omega
    · refine ⟨?_, ?_, ?_⟩
      · intro x hx
        have hx' : x ∈ P ++ rest := by
          simpa [handleOne, horacle, ha, liveTasks] using hx
        rcases List.mem_append.mp hx' with h | h
        · exact hatt x (hmem x (List.mem_append_left _ h))
        · exact hatt x (hmem x (List.mem_append_right _ (List.mem_cons_of_mem _ h)))
      · have hgoal : (liveTasks (handleOne oracle sections ma t
            { s with pending := P, inFlight := rest })).map SecTask.index
            ++ (handleOne oracle sections ma t
              { s with pending := P, inFlight := rest }).results.map Prod.fst
            = (P.map SecTask.index ++ rest.map SecTask.index)
              ++ (s.results.map Prod.fst ++ [t.index]) := by
          simp [handleOne, horacle, ha, liveTasks]
        rw [hgoal]
        exact ((perm_shuffle _ _ _ _).trans
          ((hmapPerm.symm).append_right _)).trans hperm
      · have hgoal : runMeasure ma (handleOne oracle sections ma t
            { s with pending := P, inFlight := rest })
            = (P.map fun x => ma - x.attempts).sum
              + (rest.map fun x => ma - x.attempts).sum := by
          simp [handleOne, horacle, ha, liveTasks, runMeasure]
        rw [hgoal, hsum]
        omega

lemma runGo_complete (oracle : ℕ → ℕ → RunOutcome) (pick : ℕ → ℕ)
    (sections : List SectionMeta) (ma n : ℕ) :
    ∀ (fuel k : ℕ) (s : RunState),
      runMeasure ma s < fuel → 1 ≤ s.concurrency →
      (∀ t ∈ liveTasks s, t.attempts < ma) →
      ((liveTasks s).map SecTask.index ++ s.results.map Prod.fst).Perm (List.range n) →
      (runGo oracle pick sections ma fuel k s).pending = [] ∧
      (runGo oracle pick sections ma fuel k s).inFlight = [] ∧
      ((runGo oracle pick sections ma fuel k s).results.map Prod.fst).Perm
        (List.range n) := by
  intro fuel
  induction fuel with
  | zero =>
    intro k s hm
    exact absurd hm (by omega)
  | succ fuel ih =>
    intro k s hm hc hatt hperm
    rw [runGo]
    cases hstep : stepRun oracle pick sections ma k s with
    | none =>
      obtain ⟨hp, hif⟩ := stepRun_none hc hstep
      refine ⟨hp, hif, ?_⟩
      have hlive : liveTasks s = [] := by simp [liveTasks, hp, hif]
      simpa [hlive] using hperm
    | some s' =>
      obtain ⟨hatt', hperm', hmeas⟩ := stepRun_preserves hstep hatt hperm
      have hc' := (stepRun_conc oracle pick sections ma k s s' hstep).2 hc
      exact ih (k + 1) s' (by omega) hc' hatt' hperm'

lemma initState_measure (sections : List SectionMeta) (c ma : ℕ) :
    runMeasure ma (initState sections c) = sections.length * ma := by
  rw [runMeasure]
  have hlive : liveTasks (initState sections c)
      = (List.range sections.length).map fun i => (⟨i, 0⟩ : SecTask) := by
    simp [initState, liveTasks]
  rw [hlive, List.map_map]
  have hconst : ((fun t : SecTask => ma - t.attempts) ∘ fun i : ℕ => (⟨i, 0⟩ : SecTask))
      = fun _ : ℕ => ma := rfl
  rw [hconst, List.map_const', List.sum_replicate, List.length_range, smul_eq_mul]

lemma initState_perm (sections : List SectionMeta) (c : ℕ) :
    ((liveTasks (initState sections c)).map SecTask.index
      ++ (initState sections c).results.map Prod.fst).Perm
      (List.range sections.length) := by
  have hlive : liveTasks (initState sections c)
      = (List.range sections.length).map fun i => (⟨i, 0⟩ : SecTask) := by
    simp [initState, liveTasks]
  rw [hlive, List.map_map]
  have hcomp : (SecTask.index ∘ fun i : ℕ => (⟨i, 0⟩ : SecTask)) = id := rfl
  simp [initState, hcomp]

lemma aggregate_sections_categories (ps : List SectionPayload) :
    (_aggregate_sections ps).categories = ps.map aggCat := by
  simp only [_aggregate_sections, agg_foldl ps [] 0 0, List.nil_append]

/-- C8.  In the sectional scoring loop: `max_attempts = max(2, max_retries+1)`
is at least 2; a task failing with attempts remaining is re-admitted at the
front of the pending queue after a recorded back-off sleep of
`min(2·attempt_count, 5)` seconds, contributing no result; a task exhausting
its attempts contributes the neutral placeholder payload (empty criteria
list, null section score, explicit fallback note) instead of aborting; and
for every oracle and completion schedule the finished run has exactly one
result per section (its result indices are a permutation of the section
indices), so the aggregated scorecard has one category per section. -/
theorem sectional_retry_and_completion :
    (∀ mr : ℕ, 2 ≤ maxAttempts mr) ∧
    (∀ (oracle : ℕ → ℕ → RunOutcome) (sections : List SectionMeta) (ma : ℕ)
        (t : SecTask) (s : RunState) (ek : ErrKind),
      oracle t.index t.attempts = RunOutcome.err ek → t.attempts + 1 < ma →
        (handleOne oracle sections ma t s).pending
          = ⟨t.index, t.attempts + 1⟩ :: s.pending ∧
        (handleOne oracle sections ma t s).sleeps
          = s.sleeps ++ [pyMin (2 * ((t.attempts + 1 : ℕ) : ℚ)) 5] ∧
        (handleOne oracle sections ma t s).results = s.results) ∧
    (∀ (oracle : ℕ → ℕ → RunOutcome) (sections : List SectionMeta) (ma : ℕ)
        (t : SecTask) (s : RunState) (ek : ErrKind),
      oracle t.index t.attempts = RunOutcome.err ek → ¬ t.attempts + 1 < ma →
        (handleOne oracle sections ma t s).results
          = s.results ++ [(t.index, neutralPayload sections t.index)] ∧
        (handleOne oracle sections ma t s).pending = s.pending) ∧
    (∀ (sections : List SectionMeta) (i : ℕ),
      (neutralPayload sections i).criteria = [] ∧
      (neutralPayload sections i).sectionScore = none ∧
      (neutralPayload sections i).suggestedImprovements
        = ["Automatic fallback due to repeated errors"]) ∧
    (∀ (oracle : ℕ → ℕ → RunOutcome) (pick : ℕ → ℕ) (sections : List SectionMeta)
        (mr : ℕ) (rc : ℤ),
      ((evaluate_sectional oracle pick sections mr rc).results.map Prod.fst).Perm
        (List.range sections.length) ∧
      (evaluate_sectional oracle pick sections mr rc).results.length
        = sections.length ∧
      (evaluateAggregated oracle pick sections mr rc).categories.length
        = sections.length) := by
  refine ⟨fun mr => le_max_left _ _, ?_, ?_, ?_, ?_⟩
  · intro oracle sections ma t s ek h ha
    simp [handleOne, h, ha]
  · intro oracle sections ma t s ek h ha
    simp [handleOne, h, ha]
  · intro sections i
    exact ⟨rfl, rfl, rfl⟩
  · intro oracle pick sections mr rc
    have hma : 1 ≤ maxAttempts mr := le_trans (by norm_num) (le_max_left 2 (mr + 1))
    have hperm : ((evaluate_sectional oracle pick sections mr rc).results.map
        Prod.fst).Perm (List.range sections.length) := by
      rw [evaluate_sectional]
      refine (runGo_complete oracle pick sections (maxAttempts mr) sections.length
        (sections.length * maxAttempts mr + 1) 0 _ ?_ ?_ ?_ ?_).2.2
      · rw [initState_measure]
        omega
      · exact pick_initial_pos _ _
      · intro t ht
        have : t.attempts = 0 := by
          have hlive : liveTasks (initState sections
              (pick_initial_concurrency (scorerConcurrency rc) sections.length))
              = (List.range sections.length).map fun i => (⟨i, 0⟩ : SecTask) := by
            simp [initState, liveTasks]
          rw [hlive] at ht
          obtain ⟨i, _, rfl⟩ := List.mem_map.mp ht
          rfl
        omega
      · exact initState_perm sections _
    refine ⟨hperm, ?_, ?_⟩
    · have := hperm.length_eq
      simpa using this
    · rw [evaluateAggregated, aggregate_sections_categories]
      have := hperm.length_eq
      simpa using this

/-- Witness for C8: a task of section 0 failing with a non-rate-limit error
at attempt 0 (with `max_attempts = 3`) is re-admitted at the front with a
recorded sleep of `min(2·1, 5) = 2` seconds; and a 1-section run whose every
attempt fails still finishes with exactly one (neutral) result for section
0. -/
theorem sectional_retry_and_completion_witness :
    (handleOne (fun _ _ => RunOutcome.err ErrKind.timeout) [⟨"A", none, []⟩] 3 ⟨0, 0⟩
        ⟨[], [], 1, [], []⟩).pending = [⟨0, 1⟩] ∧
    (handleOne (fun _ _ => RunOutcome.err ErrKind.timeout) [⟨"A", none, []⟩] 3 ⟨0, 0⟩
        ⟨[], [], 1, [], []⟩).sleeps = [pyMin (2 * ((1 : ℕ) : ℚ)) 5] ∧
    ((evaluate_sectional (fun _ _ => RunOutcome.err ErrKind.timeout) (fun _ => 0)
        [⟨"A", none, []⟩] 0 1).results.map Prod.fst).Perm (List.range 1) := by
  obtain ⟨hp, hsl, _⟩ := sectional_retry_and_completion.2.1
    (fun _ _ => RunOutcome.err ErrKind.timeout) [⟨"A", none, []⟩] 3 ⟨0, 0⟩
    ⟨[], [], 1, [], []⟩ ErrKind.timeout rfl (by norm_num)
  refine ⟨by simpa using hp, by simpa using hsl,
    (sectional_retry_and_completion.2.2.2.2
      (fun _ _ => RunOutcome.err ErrKind.timeout) (fun _ => 0) [⟨"A", none, []⟩] 0 1).1⟩
